import Mathlib

/-!
Verification development for the API-documentation crawler
(`integuru/util/doc_page_parser.py`).

The Python module is embedded shallowly:

* pure helpers (`detect_documentation_type`, `parse_api_spec`,
  `reconstruct_definition`, `fetch_documentation_html`, `parse_doc_page`,
  `parse_api_documentation`) are translated into executable Lean functions;
* external collaborators (HTTP transport, the Playwright renderer,
  BeautifulSoup queries, the YAML parser) are oracle parameters collected in
  a `Site` structure, exactly as the spec treats them (out of scope,
  consumed as pure functions);
* the Python `json` module (`json.loads` / `json.dumps(..., indent=2)`) is
  modelled by an executable serializer and recursive-descent parser over a
  `PyVal` value type;
* Python's `set.pop()` (arbitrary element) is modelled by a pop oracle
  `pick : Finset String → String` assumed to return a member of any
  non-empty set; the unbounded `while` loop is modelled with explicit fuel,
  and a theorem shows the fuel bound used by the embedding always suffices
  (i.e. the loop reaches its exit condition).
-/

/-! ## String helpers: case-insensitive substring matching

Models `re.search(pattern, s, re.IGNORECASE)` for the literal patterns used
by `detect_documentation_type` (the regexes there contain no metacharacters
apart from an alternation, which is expanded at the call sites). -/

/-- Lower-case every character of a string (models Python case folding for
the ASCII patterns used by the classifier). -/
def lowerStr (s : String) : String := String.mk (s.toList.map Char.toLower)

/-- `strContainsSub s pat` is true iff `pat` occurs as a contiguous
substring of `s`. -/
def strContainsSub (s pat : String) : Bool :=
  (List.range (s.toList.length + 1)).any
    (fun i => List.isPrefixOf pat.toList (s.toList.drop i))

/-- Case-insensitive substring test: models `re.search(pat, s, re.IGNORECASE)`
for a literal pattern `pat`. -/
def containsCI (s pat : String) : Bool := strContainsSub (lowerStr s) (lowerStr pat)

/-! ## Classifier (`detect_documentation_type`)

The HTML document is modelled as the list of tags (in document order) that
BeautifulSoup would expose, each with the attributes the classifier
inspects (`src`, `href`, `id`, `alt`).  `soup.find(tag, attr=re.compile(p, I))`
is existence of a tag of that name whose attribute is present and matches
`p` as a case-insensitive substring; `soup.find(id='swagger-ui')` is
existence of any tag whose id equals `swagger-ui`.  An empty HTML string
parses to a document with no tags, so the `if not html_content` guard is
modelled by the emptiness test on the tag list (extensionally equivalent:
both routes yield `("unknown", 0.0)`). -/

structure HtmlTag where
  tag : String
  src : Option String
  href : Option String
  idAttr : Option String
  alt : Option String
deriving DecidableEq, Repr

/-- Result record of the classifier (`DocTypeResult` dataclass).  The Python
`float` confidences are the exact decimal constants 0.9/0.8/0.7/0.6/0.0, so
they are represented as rationals. -/
structure DocTypeResult where
  doc_type : String
  confidence : ℚ
deriving DecidableEq, Repr

/-- Attribute present and matching the literal pattern case-insensitively. -/
def attrMatches (a : Option String) (pat : String) : Bool :=
  match a with
  | Option.some s => containsCI s pat
  | Option.none => false

/-- Embedding of `detect_documentation_type` from
`src/integuru/util/doc_page_parser.py` lines 26-64.  The fingerprint rules
are applied in the source's order, returning at the first match. -/
def detect_documentation_type (doc : List HtmlTag) : DocTypeResult :=
  if doc.isEmpty then ⟨"unknown", 0⟩
  else if doc.any (fun e => e.tag == "script" &&
      (attrMatches e.src "swagger-ui" || attrMatches e.src "redoc")) then
    ⟨"openapi", 9/10⟩
  else if doc.any (fun e => e.idAttr == Option.some "swagger-ui") then
    ⟨"swagger", 8/10⟩
  else if doc.any (fun e => e.tag == "a" &&
      (attrMatches e.href "getpostman" ||
       attrMatches e.href "documenter.getpostman.com")) then
    ⟨"postman", 7/10⟩
  else if doc.any (fun e => e.tag == "img" && attrMatches e.alt "Run in Postman") then
    ⟨"postman", 6/10⟩
  else ⟨"unknown", 0⟩

/-- C7: the classifier applies its fingerprint checks in fixed priority
order: any document containing both a script whose `src` matches
`swagger-ui` (rule 1) and an image whose `alt` text matches
`Run in Postman` (rule 4) classifies as OpenAPI with confidence 0.9,
never as Postman. -/
theorem classifier_priority_swagger_over_postman (doc : List HtmlTag)
    (e₁ : HtmlTag) (he₁ : e₁ ∈ doc) (h₁tag : e₁.tag = "script")
    (s₁ : String) (hs₁ : e₁.src = Option.some s₁) (hm₁ : containsCI s₁ "swagger-ui" = true)
    (e₂ : HtmlTag) (he₂ : e₂ ∈ doc) (h₂tag : e₂.tag = "img")
    (s₂ : String) (hs₂ : e₂.alt = Option.some s₂) (hm₂ : containsCI s₂ "Run in Postman" = true) :
    detect_documentation_type doc = ⟨"openapi", 9/10⟩ := by
  have hne : ¬ doc.isEmpty := by
    cases doc with
    | nil => cases he₁
    | cons a l => simp [List.isEmpty]
  have hany : doc.any (fun e => e.tag == "script" &&
      (attrMatches e.src "swagger-ui" || attrMatches e.src "redoc")) = true := by
    refine List.any_eq_true.mpr ⟨e₁, he₁, ?_⟩
    simp [h₁tag, hs₁, attrMatches, hm₁]
  simp [detect_documentation_type, hne, hany]

/-- Concrete instance witnessing `classifier_priority_swagger_over_postman`:
a two-tag document with a swagger-ui script reference and a
`Run in Postman` image classifies as OpenAPI 0.9. -/
theorem classifier_priority_swagger_over_postman_witness :
    detect_documentation_type
      [⟨"script", Option.some "https://cdn.example.com/Swagger-UI/bundle.js",
         Option.none, Option.none, Option.none⟩,
       ⟨"img", Option.none, Option.none, Option.none, Option.some "Run in Postman"⟩]
      = ⟨"openapi", 9/10⟩ :=
  classifier_priority_swagger_over_postman
    [⟨"script", Option.some "https://cdn.example.com/Swagger-UI/bundle.js",
       Option.none, Option.none, Option.none⟩,
     ⟨"img", Option.none, Option.none, Option.none, Option.some "Run in Postman"⟩]
    ⟨"script", Option.some "https://cdn.example.com/Swagger-UI/bundle.js",
       Option.none, Option.none, Option.none⟩
    (by simp) rfl
    "https://cdn.example.com/Swagger-UI/bundle.js" rfl (by decide)
    ⟨"img", Option.none, Option.none, Option.none, Option.some "Run in Postman"⟩
    (by simp) rfl
    "Run in Postman" rfl (by decide)

/-! ## Python values and the `json` codec

`parse_api_spec` hands whatever `json.loads` / `yaml.safe_load` produce to
`reconstruct_definition`, which serializes it with
`json.dumps(spec_dict, indent=2)`.  `PyVal` is the value universe relevant
here: `None`, booleans, integers, strings, lists, and dicts (association
lists in insertion order, mirroring Python 3.7+ dict order).  Floats are
outside the model: none of the claims settled against this codec involve
fractional numbers, and the parser below rejects number tokens carrying a
fraction or exponent rather than misreading them. -/

inductive PyVal where
  | pynone : PyVal
  | pybool : Bool → PyVal
  | pyint : Int → PyVal
  | pystr : String → PyVal
  | pylist : List PyVal → PyVal
  | pydict : List (PyVal × PyVal) → PyVal
deriving Repr

/-- Python truthiness of a `PyVal` (`bool(v)`): `None`, `False`, `0`, the
empty string, the empty list and the empty dict are falsy. -/
def truthy : PyVal → Bool
  | PyVal.pynone => false
  | PyVal.pybool b => b
  | PyVal.pyint i => !(i == 0)
  | PyVal.pystr s => !(s == "")
  | PyVal.pylist l => !l.isEmpty
  | PyVal.pydict l => !l.isEmpty

/-- Dict-key coercion of `json.dumps`: string keys pass through, and the
other hashable scalar key types are coerced to the strings shown here;
container keys cannot occur in a Python dict (unhashable) and make the
serializer fail (`TypeError`), modelled as `none`. -/
def pyKeyStr : PyVal → Option String
  | PyVal.pystr s => Option.some s
  | PyVal.pyint i => Option.some (toString i)
  | PyVal.pybool true => Option.some "true"
  | PyVal.pybool false => Option.some "false"
  | PyVal.pynone => Option.some "null"
  | _ => Option.none

/-- Opening brace character (written via its code point). -/
def lbrace : Char := Char.ofNat 123

/-- Closing brace character (written via its code point). -/
def rbrace : Char := Char.ofNat 125

/-- Lower-case hexadecimal digit for `0 ≤ n < 16` (as emitted by Python's
`'\u%04x'` escape formatting). -/
def hexDigitChar (n : Nat) : Char :=
  if n < 10 then Char.ofNat (48 + n) else Char.ofNat (87 + n)

/-- Four-digit lower-case hexadecimal rendering of `n < 0x10000`. -/
def hex4 (n : Nat) : List Char :=
  [hexDigitChar (n / 4096 % 16), hexDigitChar (n / 256 % 16),
   hexDigitChar (n / 16 % 16), hexDigitChar (n % 16)]

/-- JSON escaping of one character as performed by Python's
`json.encoder.py_encode_basestring_ascii` (the `ensure_ascii=True` default
used by `json.dumps`): the two-character shorthands, printable ASCII
verbatim, `\uXXXX` for other BMP code points, and a surrogate pair for
astral code points. -/
def escChar (c : Char) : List Char :=
  if c = '"' then ['\\', '"']
  else if c = '\\' then ['\\', '\\']
  else if c.toNat = 8 then ['\\', 'b']
  else if c.toNat = 9 then ['\\', 't']
  else if c.toNat = 10 then ['\\', 'n']
  else if c.toNat = 12 then ['\\', 'f']
  else if c.toNat = 13 then ['\\', 'r']
  else if 32 ≤ c.toNat ∧ c.toNat ≤ 126 then [c]
  else if c.toNat < 65536 then '\\' :: 'u' :: hex4 c.toNat
  else
    ('\\' :: 'u' :: hex4 (55296 + (c.toNat - 65536) / 1024)) ++
    ('\\' :: 'u' :: hex4 (56320 + (c.toNat - 65536) % 1024))

/-- JSON escaping of a character sequence. -/
def escapeChars : List Char → List Char
  | [] => []
  | c :: rest => escChar c ++ escapeChars rest

/-- A JSON string literal: quote, escaped body, quote. -/
def encodeString (s : String) : List Char :=
  '"' :: (escapeChars s.toList ++ ['"'])

/-- Decimal digit character for `d < 10`. -/
def decChar (d : Nat) : Char := Char.ofNat (48 + d)

/-- Decimal rendering of a natural number, most significant digit first
(Python `repr` of a non-negative int). -/
def natChars (n : Nat) : List Char :=
  if n = 0 then ['0'] else (Nat.digits 10 n).reverse.map decChar

/-- Decimal rendering of an integer (Python `repr` of an int). -/
def intChars : Int → List Char
  | Int.ofNat n => natChars n
  | Int.negSucc m => '-' :: natChars (m + 1)

/-- The newline-plus-indentation separator emitted by `json.dumps` with
`indent=2` at nesting level `k`. -/
def jnl (k : Nat) : List Char := '\n' :: List.replicate (2 * k) ' '

mutual

/-- Embedding of `json.dumps(v, indent=2)` (the serialization performed by
`reconstruct_definition`), producing the emitted characters at nesting
level `k`, or `none` where Python raises `TypeError` (container-typed dict
keys). -/
def dumpsVal : PyVal → Nat → Option (List Char)
  | PyVal.pynone, _ => Option.some ('n' :: 'u' :: 'l' :: 'l' :: [])
  | PyVal.pybool true, _ => Option.some ('t' :: 'r' :: 'u' :: 'e' :: [])
  | PyVal.pybool false, _ => Option.some ('f' :: 'a' :: 'l' :: 's' :: 'e' :: [])
  | PyVal.pyint i, _ => Option.some (intChars i)
  | PyVal.pystr s, _ => Option.some (encodeString s)
  | PyVal.pylist [], _ => Option.some ('[' :: [']'])
  | PyVal.pylist (x :: xs), k =>
    match dumpsItems (x :: xs) (k + 1) with
    | Option.some body =>
      Option.some ('[' :: (jnl (k + 1) ++ body ++ jnl k ++ [']']))
    | Option.none => Option.none
  | PyVal.pydict [], _ => Option.some (lbrace :: [rbrace])
  | PyVal.pydict (p :: ps), k =>
    match dumpsPairs (p :: ps) (k + 1) with
    | Option.some body =>
      Option.some (lbrace :: (jnl (k + 1) ++ body ++ jnl k ++ [rbrace]))
    | Option.none => Option.none

/-- List items of `json.dumps`, joined by `,` + newline + indentation. -/
def dumpsItems : List PyVal → Nat → Option (List Char)
  | [], _ => Option.some []
  | [x], k => dumpsVal x k
  | x :: y :: ys, k =>
    match dumpsVal x k, dumpsItems (y :: ys) k with
    | Option.some a, Option.some b => Option.some (a ++ (',' :: jnl k) ++ b)
    | _, _ => Option.none

/-- Dict entries of `json.dumps`: coerced key string, `": "`, value, joined
by `,` + newline + indentation. -/
def dumpsPairs : List (PyVal × PyVal) → Nat → Option (List Char)
  | [], _ => Option.some []
  | [p], k =>
    match pyKeyStr p.1, dumpsVal p.2 k with
    | Option.some ks, Option.some v =>
      Option.some (encodeString ks ++ (':' :: ' ' :: v))
    | _, _ => Option.none
  | p :: q :: qs, k =>
    match pyKeyStr p.1, dumpsVal p.2 k, dumpsPairs (q :: qs) k with
    | Option.some ks, Option.some v, Option.some b =>
      Option.some ((encodeString ks ++ (':' :: ' ' :: v)) ++ (',' :: jnl k) ++ b)
    | _, _, _ => Option.none

end

/-! ## `json.loads` model

A recursive-descent parser with the whitespace tolerance of Python's JSON
decoder (space, tab, newline, carriage return between tokens).  Character
level loops are structural; the value-level recursion carries fuel (the
embedding always supplies more fuel than the input length, and the
round-trip theorems below prove the supplied fuel suffices on serializer
output).  Two deliberate model boundaries, both irrelevant to the claims:
number tokens with a fraction or exponent (Python floats) and lone
surrogate escapes are rejected instead of being represented. -/

/-- JSON whitespace (Python's decoder skips exactly these). -/
def isJWs (c : Char) : Bool := c = ' ' || c = '\t' || c = '\n' || c = '\r'

/-- Skip leading JSON whitespace. -/
def skipWs : List Char → List Char
  | [] => []
  | c :: rest => if isJWs c then skipWs rest else c :: rest

/-- Value of one hexadecimal digit (either case), as accepted inside a
`\uXXXX` escape. -/
def readHexDigit (c : Char) : Option Nat :=
  if 48 ≤ c.toNat ∧ c.toNat ≤ 57 then Option.some (c.toNat - 48)
  else if 97 ≤ c.toNat ∧ c.toNat ≤ 102 then Option.some (c.toNat - 87)
  else if 65 ≤ c.toNat ∧ c.toNat ≤ 70 then Option.some (c.toNat - 55)
  else Option.none

/-- Value of a four-digit hexadecimal escape payload. -/
def readHex4 (a b c d : Char) : Option Nat :=
  match readHexDigit a, readHexDigit b, readHexDigit c, readHexDigit d with
  | Option.some x, Option.some y, Option.some z, Option.some w =>
    Option.some (((x * 16 + y) * 16 + z) * 16 + w)
  | _, _, _, _ => Option.none

/-- Prepend a decoded character to a string-body parse result. -/
def consStr (c : Char) (r : Option (List Char × List Char)) :
    Option (List Char × List Char) :=
  match r with
  | Option.some p => Option.some (c :: p.1, p.2)
  | Option.none => Option.none

/-- Decode one escape sequence after a backslash: `e` is the escape letter
and `rest2` the input after it.  Returns the decoded character and the
remaining input.  Surrogate pairs are combined as Python's decoder does;
lone surrogate escapes are rejected (model boundary: Lean characters are
Unicode scalar values). -/
def escDecode (e : Char) (rest2 : List Char) : Option (Char × List Char) :=
  if e = '"' then Option.some ('"', rest2)
  else if e = '\\' then Option.some ('\\', rest2)
  else if e = '/' then Option.some ('/', rest2)
  else if e = 'b' then Option.some (Char.ofNat 8, rest2)
  else if e = 'f' then Option.some (Char.ofNat 12, rest2)
  else if e = 'n' then Option.some (Char.ofNat 10, rest2)
  else if e = 'r' then Option.some (Char.ofNat 13, rest2)
  else if e = 't' then Option.some (Char.ofNat 9, rest2)
  else if e = 'u' then
    match rest2 with
    | h1 :: h2 :: h3 :: h4 :: rest3 =>
      match readHex4 h1 h2 h3 h4 with
      | Option.some n =>
        if 55296 ≤ n ∧ n < 56320 then
          match rest3 with
          | x :: y :: g1 :: g2 :: g3 :: g4 :: rest4 =>
            if x = '\\' ∧ y = 'u' then
              match readHex4 g1 g2 g3 g4 with
              | Option.some m =>
                if 56320 ≤ m ∧ m < 57344 then
                  Option.some (Char.ofNat (65536 + (n - 55296) * 1024 + (m - 56320)), rest4)
                else Option.none
              | Option.none => Option.none
            else Option.none
          | _ => Option.none
        else if 56320 ≤ n ∧ n < 57344 then Option.none
        else Option.some (Char.ofNat n, rest3)
      | Option.none => Option.none
    | _ => Option.none
  else Option.none

/-- Body of a JSON string literal after the opening quote: decodes escapes
(via `escDecode`) up to the closing quote and returns the decoded
characters together with the input after the closing quote.  Unescaped
control characters are an error (`strict=True`, the `json.loads` default).
The fuel argument only bounds the recursion; every call site supplies more
fuel than the input length, which always suffices since each decoded
character consumes at least one input character. -/
def parseStrBody : Nat → List Char → Option (List Char × List Char)
  | 0, _ => Option.none
  | _ + 1, [] => Option.none
  | fuel + 1, c :: rest =>
    if c = '"' then Option.some ([], rest)
    else if c = '\\' then
      match rest with
      | [] => Option.none
      | e :: rest2 =>
        match escDecode e rest2 with
        | Option.some p => consStr p.1 (parseStrBody fuel p.2)
        | Option.none => Option.none
    else if c.toNat < 32 then Option.none
    else consStr c (parseStrBody fuel rest)

/-- Longest prefix of decimal digits and the remaining input. -/
def takeDigits : List Char → List Char × List Char
  | [] => ([], [])
  | c :: rest =>
    if c.isDigit then
      let p := takeDigits rest
      (c :: p.1, p.2)
    else ([], c :: rest)

/-- Numeric value of a decimal digit character. -/
def digitVal (c : Char) : Nat := c.toNat - 48

/-- Accumulate decimal digits, most significant first. -/
def digitsToNat (ds : List Char) : Nat :=
  ds.foldl (fun a ch => a * 10 + digitVal ch) 0

/-- Unsigned part of a JSON number token: `0` or a non-zero digit followed
by more digits (the decoder's `(?:0|[1-9]\d*)`).  A following `.`/`e`/`E`
would make the token a Python float, which the model rejects. -/
def parseNat : List Char → Option (Nat × List Char)
  | [] => Option.none
  | c :: rest =>
    if c = '0' then
      match rest with
      | [] => Option.some (0, [])
      | d :: _ =>
        if d.isDigit ∨ d = '.' ∨ d = 'e' ∨ d = 'E' then Option.none
        else Option.some (0, rest)
    else if c.isDigit then
      match takeDigits (c :: rest) with
      | (ds, r) =>
        match r with
        | d :: _ =>
          if d = '.' ∨ d = 'e' ∨ d = 'E' then Option.none
          else Option.some (digitsToNat ds, r)
        | [] => Option.some (digitsToNat ds, [])
    else Option.none

/-- Update an association list at a key, keeping first-insertion position
(Python dict assignment `d[k] = v` for an existing key). -/
def insertMember : List (String × PyVal) → String → PyVal → List (String × PyVal)
  | [], k, v => [(k, v)]
  | (k0, v0) :: rest, k, v =>
    if k0 = k then (k0, v) :: rest
    else (k0, v0) :: insertMember rest k v

/-- Fold JSON object members into a Python dict: repeated keys keep their
first position and last value, as `dict` construction does. -/
def buildDictAux : List (String × PyVal) → List (String × PyVal) → List (String × PyVal)
  | acc, [] => acc
  | acc, (k, v) :: rest => buildDictAux (insertMember acc k v) rest

/-- JSON object members as a `PyVal` dict (keys of a decoded JSON object
are always strings). -/
def buildDict (ms : List (String × PyVal)) : List (PyVal × PyVal) :=
  (buildDictAux [] ms).map (fun p => (PyVal.pystr p.1, p.2))

mutual

/-- One JSON value: leading whitespace, then a literal, string, number,
array or object, returning the value and the remaining input. -/
def parseVal : Nat → List Char → Option (PyVal × List Char)
  | 0, _ => Option.none
  | Nat.succ fuel, s =>
    match skipWs s with
    | [] => Option.none
    | c :: rest =>
      if c = 'n' then
        match rest with
        | 'u' :: 'l' :: 'l' :: r => Option.some (PyVal.pynone, r)
        | _ => Option.none
      else if c = 't' then
        match rest with
        | 'r' :: 'u' :: 'e' :: r => Option.some (PyVal.pybool true, r)
        | _ => Option.none
      else if c = 'f' then
        match rest with
        | 'a' :: 'l' :: 's' :: 'e' :: r => Option.some (PyVal.pybool false, r)
        | _ => Option.none
      else if c = '"' then
        match parseStrBody (rest.length + 1) rest with
        | Option.some (cs, r) => Option.some (PyVal.pystr (String.mk cs), r)
        | Option.none => Option.none
      else if c = '[' then
        match skipWs rest with
        | d :: r2 =>
          if d = ']' then Option.some (PyVal.pylist [], r2)
          else
            match parseItems fuel (d :: r2) with
            | Option.some (vs, r3) => Option.some (PyVal.pylist vs, r3)
            | Option.none => Option.none
        | [] => Option.none
      else if c = lbrace then
        match skipWs rest with
        | d :: r2 =>
          if d = rbrace then Option.some (PyVal.pydict [], r2)
          else
            match parseMembers fuel (d :: r2) with
            | Option.some (ms, r3) => Option.some (PyVal.pydict (buildDict ms), r3)
            | Option.none => Option.none
        | [] => Option.none
      else if c = '-' then
        match parseNat rest with
        | Option.some (n, r) => Option.some (PyVal.pyint (-(n : Int)), r)
        | Option.none => Option.none
      else if c.isDigit then
        match parseNat (c :: rest) with
        | Option.some (n, r) => Option.some (PyVal.pyint (n : Int), r)
        | Option.none => Option.none
      else Option.none

/-- Non-empty comma-separated array items, consuming the closing `]`. -/
def parseItems : Nat → List Char → Option (List PyVal × List Char)
  | 0, _ => Option.none
  | Nat.succ fuel, s =>
    match parseVal fuel s with
    | Option.some (v, r) =>
      match skipWs r with
      | d :: r2 =>
        if d = ',' then
          match parseItems fuel r2 with
          | Option.some (vs, r3) => Option.some (v :: vs, r3)
          | Option.none => Option.none
        else if d = ']' then Option.some ([v], r2)
        else Option.none
      | [] => Option.none
    | Option.none => Option.none

/-- Non-empty comma-separated object members (`"key": value`), consuming
the closing brace. -/
def parseMembers : Nat → List Char → Option (List (String × PyVal) × List Char)
  | 0, _ => Option.none
  | Nat.succ fuel, s =>
    match skipWs s with
    | q :: r =>
      if q = '"' then
        match parseStrBody (r.length + 1) r with
        | Option.some (cs, r2) =>
          match skipWs r2 with
          | col :: r3 =>
            if col = ':' then
              match parseVal fuel r3 with
              | Option.some (v, r4) =>
                match skipWs r4 with
                | d :: r5 =>
                  if d = ',' then
                    match parseMembers fuel r5 with
                    | Option.some (ms, r6) =>
                      Option.some ((String.mk cs, v) :: ms, r6)
                    | Option.none => Option.none
                  else if d = rbrace then Option.some ([(String.mk cs, v)], r5)
                  else Option.none
                | [] => Option.none
              | Option.none => Option.none
            else Option.none
          | [] => Option.none
        | Option.none => Option.none
      else Option.none
    | [] => Option.none

end

/-- Embedding of `json.loads`: parse one value, then require only
whitespace to follow (Python's final `Extra data` check).  The fuel
exceeds what any parse can consume, as the round-trip theorems verify for
serializer output. -/
def jloadsChars (s : List Char) : Option PyVal :=
  match parseVal (2 * s.length + 2) s with
  | Option.some (v, r) => if (skipWs r).isEmpty then Option.some v else Option.none
  | Option.none => Option.none

/-- `json.loads` on a string. -/
def jloads (s : String) : Option PyVal := jloadsChars s.toList

/-! ## `parse_api_spec` and `reconstruct_definition` -/

/-- Embedding of `parse_api_spec` (lines 163-188): empty text yields
`None`; otherwise JSON is tried first and YAML only as a fallback; if both
fail the function returns `None`.  The YAML parser is an external
collaborator, passed as an oracle (`none` = `YAMLError`; note
`yaml.safe_load` can itself return `None`, represented as
`some PyVal.pynone`, which this function returns unchanged just as the
Python code returns the parsed value).  The Python `None` result is the
value `PyVal.pynone`. -/
def parse_api_spec (yamlParse : String → Option PyVal) (spec_text : String) : PyVal :=
  if spec_text = "" then PyVal.pynone
  else
    match jloads spec_text with
    | Option.some v => v
    | Option.none =>
      match yamlParse spec_text with
      | Option.some v => v
      | Option.none => PyVal.pynone

/-- Embedding of `reconstruct_definition` (lines 190-208): a falsy
`spec_dict` (`if not spec_dict`) yields `None`; otherwise
`json.dumps(spec_dict, indent=2)`, with serialization failure
(`TypeError`/`ValueError`) caught and turned into `None`.  The `doc_type`
argument is accepted and ignored, as in the source. -/
def reconstruct_definition (spec_dict : PyVal) (doc_type : String) : Option String :=
  if truthy spec_dict then
    match dumpsVal spec_dict 0 with
    | Option.some cs => Option.some (String.mk cs)
    | Option.none => Option.none
  else Option.none

/-! ## Fetch gateway (`fetch_documentation_html`)

The HTTP transport is the collaborator `get : url → Option HttpResp`
(`none` models a `requests.RequestException` raised by `requests.get`
itself, e.g. connection error or timeout); `raise_for_status` raises
exactly for 4xx/5xx status codes, and that exception is caught by the same
`except` clause.  The Playwright renderer is the collaborator
`render : url → Option String` (`fetch_html_dynamic`, whose internal
browser management is out of scope). -/

structure HttpResp where
  status : Nat
  body : String
deriving DecidableEq, Repr

/-- Collaborator bundle for one crawl: the finite universe of same-origin
page URLs the link extractor can produce (`pages`), the HTTP transport and
renderer, and the BeautifulSoup-backed oracles of `extract_doc_links`,
`parse_doc_page`'s title/content extraction, `find_spec_link`, the spec
transport of `retrieve_api_spec`, and `yaml.safe_load`. -/
structure Site where
  pages : Finset String
  get : String → Option HttpResp
  render : String → Option String
  extractLinks : String → String → Finset String
  links_sub : ∀ h u, extractLinks h u ⊆ pages
  titleOf : String → String
  contentOf : String → String
  findSpecLink : String → String → Option String
  retrieveSpec : String → Option String
  yamlParse : String → Option PyVal

/-- The static (`requests`) portion of `fetch_documentation_html`: the body
is returned only when `requests.get` succeeded, `raise_for_status` did not
raise (status outside 400-599), and `len(resp.text) > 300`; every other
outcome falls through. -/
def fetchStatic (site : Site) (url : String) : Option String :=
  match site.get url with
  | Option.some r =>
    if 400 ≤ r.status ∧ r.status < 600 then Option.none
    else if 300 < r.body.length then Option.some r.body
    else Option.none
  | Option.none => Option.none

/-- Embedding of `fetch_documentation_html` (lines 234-261): empty URL
yields `None`; otherwise the static fetch, falling back to the Playwright
renderer only when `use_playwright` is true; otherwise `None`. -/
def fetch_documentation_html (site : Site) (url : String) (use_playwright : Bool) :
    Option String :=
  if url = "" then Option.none
  else
    match fetchStatic site url with
    | Option.some body => Option.some body
    | Option.none => if use_playwright then site.render url else Option.none

/-! ## Per-page parsing (`parse_doc_page`) and the crawl -/

/-- The `DocPage` dataclass: `spec` is the Python value attached to the
page (`PyVal.pynone` for Python `None`, the dataclass default). -/
structure DocPage where
  url : String
  title : String
  content : String
  spec : PyVal
deriving Repr

/-- Embedding of `parse_doc_page` (lines 263-297) instrumented with the
list of spec URLs for which `retrieve_api_spec` performed a network
request during this call: the request happens exactly when
`find_spec_link` returned a truthy URL (then `retrieve_api_spec` runs
`requests.get` on it).  The returned page carries the parsed spec when
retrieval produced truthy text, `None` otherwise. -/
def parse_doc_page (site : Site) (url html : String) : DocPage × List String :=
  let title := site.titleOf html
  let content := site.contentOf html
  match site.findSpecLink html url with
  | Option.some su =>
    if su = "" then (⟨url, title, content, PyVal.pynone⟩, [])
    else
      match site.retrieveSpec su with
      | Option.some txt =>
        if txt = "" then (⟨url, title, content, PyVal.pynone⟩, [su])
        else (⟨url, title, content, parse_api_spec site.yamlParse txt⟩, [su])
      | Option.none => (⟨url, title, content, PyVal.pynone⟩, [su])
  | Option.none => (⟨url, title, content, PyVal.pynone⟩, [])

/-- Crawl state of `parse_api_documentation`: the `pages_to_visit` set, the
`visited_urls` set, the `parsed_pages` list in append order, and the
instrumentation log of spec-URL retrievals. -/
structure CrawlState where
  toVisit : Finset String
  visited : Finset String
  results : List DocPage
  retrieved : List String

/-- One iteration of the `while pages_to_visit` loop, for a frontier whose
popped element is `pick st.toVisit` (Python `set.pop()` removes and
returns an arbitrary element; `pick` is that choice).  Mirrors the body:
pop; skip if visited; mark visited; fetch (a falsy result skips the page);
parse and append the page; extend the frontier with
`extract_doc_links(html, current_url) - visited_urls`. -/
def crawlStep (site : Site) (up : Bool) (pick : Finset String → String)
    (st : CrawlState) : CrawlState :=
  let cur := pick st.toVisit
  let rest := st.toVisit.erase cur
  if cur ∈ st.visited then
    { st with toVisit := rest }
  else
    let visited' := insert cur st.visited
    match fetch_documentation_html site cur up with
    | Option.none => { st with toVisit := rest, visited := visited' }
    | Option.some html =>
      if html = "" then { st with toVisit := rest, visited := visited' }
      else
        let pr := parse_doc_page site cur html
        let links := site.extractLinks html cur
        { toVisit := rest ∪ (links \ visited'),
          visited := visited',
          results := st.results ++ [pr.1],
          retrieved := st.retrieved ++ pr.2 }

/-- The crawl loop with explicit fuel; `crawl_loop_reaches_empty` below
shows the fuel supplied by `crawlFinal` always exhausts the frontier, so
the fuel is an artifact of the embedding and not a semantic bound. -/
def crawlLoop (site : Site) (up : Bool) (pick : Finset String → String) :
    Nat → CrawlState → CrawlState
  | 0, st => st
  | Nat.succ n, st =>
    if st.toVisit = ∅ then st
    else crawlLoop site up pick n (crawlStep site up pick st)

/-- Initial crawl state: frontier `{url}`, nothing visited, no results. -/
def crawlInit (url : String) : CrawlState :=
  { toVisit := {url}, visited := ∅, results := [], retrieved := [] }

/-- Fuel that provably suffices for the frontier to empty. -/
def crawlFuel (site : Site) (root : String) : Nat :=
  ((insert root site.pages).card + 2) * ((insert root site.pages).card + 2)

/-- Final crawl state for a non-empty root URL. -/
def crawlFinal (site : Site) (up : Bool) (pick : Finset String → String)
    (root : String) : CrawlState :=
  crawlLoop site up pick (crawlFuel site root) (crawlInit root)

/-- Embedding of `parse_api_documentation` (lines 299-339): a falsy URL
returns `[]`; otherwise the parsed pages collected when the loop's
frontier empties. -/
def parse_api_documentation (site : Site) (up : Bool)
    (pick : Finset String → String) (url : String) : List DocPage :=
  if url = "" then [] else (crawlFinal site up pick url).results

/-! ## Concrete `set.pop` behaviors

For closed witnesses the pop oracle must evaluate inside the kernel, so a
fully reducible total order on strings (code-point lexicographic) is built
here, with `pickMin` and `pickMax` as the least/greatest-element pop
policies.  Any function returning a member of every non-empty set is a
legitimate model of `set.pop`; the theorems quantify over the oracle. -/

/-- Code-point-lexicographic `≤` on character lists (kernel-reducible,
unlike the well-founded `String.ltb`). -/


def charsLeB : List Char → List Char → Bool
  | [], _ => true
  | _ :: _, [] => false
  | a :: as, b :: bs =>
    if a.toNat < b.toNat then true
    else if b.toNat < a.toNat then false
    else charsLeB as bs

def strLeB (a b : String) : Bool := charsLeB a.toList b.toList

theorem charsLeB_total (a b : List Char) : charsLeB a b = true ∨ charsLeB b a = true := by
  induction a generalizing b with
  | nil => left; rfl
  | cons x xs ih =>
    cases b with
    | nil => right; rfl
    | cons y ys =>
      by_cases h1 : x.toNat < y.toNat
      · left; simp [charsLeB, h1]
      · by_cases h2 : y.toNat < x.toNat
        · right; simp [charsLeB, h2]
        · rcases ih ys with h | h
          · left; simp [charsLeB, h1, h2, h]
          · right; simp [charsLeB, h1, h2, h]

theorem charsLeB_antisymm (a b : List Char) (h1 : charsLeB a b = true)
    (h2 : charsLeB b a = true) : a = b := by
  induction a generalizing b with
  | nil =>
    cases b with
    | nil => rfl
    | cons y ys => simp [charsLeB] at h2
  | cons x xs ih =>
    cases b with
    | nil => simp [charsLeB] at h1
    | cons y ys =>
      by_cases hxy : x.toNat < y.toNat
      · have hyx : ¬ y.toNat < x.toNat := by omega
        simp [charsLeB, hxy, hyx] at h2
      · by_cases hyx : y.toNat < x.toNat
        · simp [charsLeB, hxy, hyx] at h1
        · have hx : x = y := Char.ext (UInt32.ext (show x.toNat = y.toNat by omega))
          subst hx
          simp [charsLeB, hxy, hyx] at h1 h2
          rw [ih ys h1 h2]

theorem charsLeB_trans (a b c : List Char) (h1 : charsLeB a b = true)
    (h2 : charsLeB b c = true) : charsLeB a c = true := by
  induction a generalizing b c with
  | nil => rfl
  | cons x xs ih =>
    cases b with
    | nil => simp [charsLeB] at h1
    | cons y ys =>
      cases c with
      | nil => simp [charsLeB] at h2
      | cons z zs =>
        simp only [charsLeB] at h1 h2 ⊢
        by_cases hxy : x.toNat < y.toNat
        · by_cases hyz : y.toNat < z.toNat
          · simp [hxy, hyz] at h1 h2 ⊢; omega
          · by_cases hzy : z.toNat < y.toNat
            · simp [hyz, hzy] at h2
            · simp [hxy, hyz, hzy] at h1 h2 ⊢; omega
        · by_cases hyx : y.toNat < x.toNat
          · simp [hxy, hyx] at h1
          · by_cases hyz : y.toNat < z.toNat
            · have hxz : x.toNat < z.toNat := by omega
              simp [hxz]
            · by_cases hzy : z.toNat < y.toNat
              · simp [hyz, hzy] at h2
              · have hxz : ¬ x.toNat < z.toNat := by omega
                have hzx : ¬ z.toNat < x.toNat := by omega
                simp [hxy, hyx, hyz, hzy, hxz, hzx] at h1 h2 ⊢
                exact ih ys zs h1 h2

theorem strLeB_total (a b : String) : strLeB a b = true ∨ strLeB b a = true :=
  charsLeB_total a.toList b.toList

theorem strLeB_antisymm (a b : String) (h1 : strLeB a b = true)
    (h2 : strLeB b a = true) : a = b := by
  have := charsLeB_antisymm a.toList b.toList h1 h2
  cases a; cases b
  exact congrArg String.mk this

theorem strLeB_trans (a b c : String) (h1 : strLeB a b = true)
    (h2 : strLeB b c = true) : strLeB a c = true :=
  charsLeB_trans a.toList b.toList c.toList h1 h2

def minB (a b : String) : String := if strLeB a b then a else b

def maxB (a b : String) : String := if strLeB a b then b else a

theorem minB_comm (a b : String) : minB a b = minB b a := by
  unfold minB
  by_cases h1 : strLeB a b = true <;> by_cases h2 : strLeB b a = true <;>
    simp [h1, h2]
  · exact strLeB_antisymm a b h1 h2
  · rcases strLeB_total a b with h | h <;> simp_all

theorem minB_assoc (a b c : String) : minB (minB a b) c = minB a (minB b c) := by
  by_cases hab : strLeB a b = true
  · by_cases hbc : strLeB b c = true
    · have hac : strLeB a c = true := strLeB_trans a b c hab hbc
      simp [minB, hab, hbc, hac]
    · simp [minB, hab, hbc]
  · by_cases hbc : strLeB b c = true
    · simp [minB, hab, hbc]
    · have hba : strLeB b a = true := by rcases strLeB_total a b with h | h <;> simp_all
      have hcb : strLeB c b = true := by rcases strLeB_total b c with h | h <;> simp_all
      have hac : ¬ strLeB a c = true := by
        intro h
        have hca : strLeB c a = true := strLeB_trans c b a hcb hba
        have hce : a = c := strLeB_antisymm a c h hca
        subst hce
        exact hab hcb
      simp [minB, hab, hbc, hac]

theorem maxB_comm (a b : String) : maxB a b = maxB b a := by
  unfold maxB
  by_cases h1 : strLeB a b = true <;> by_cases h2 : strLeB b a = true <;>
    simp [h1, h2]
  · exact strLeB_antisymm b a h2 h1
  · rcases strLeB_total a b with h | h <;> simp_all

theorem maxB_assoc (a b c : String) : maxB (maxB a b) c = maxB a (maxB b c) := by
  by_cases hab : strLeB a b = true
  · by_cases hbc : strLeB b c = true
    · have hac : strLeB a c = true := strLeB_trans a b c hab hbc
      simp [maxB, hab, hbc, hac]
    · simp [maxB, hab, hbc]
  · by_cases hbc : strLeB b c = true
    · simp [maxB, hab, hbc]
    · have hba : strLeB b a = true := by rcases strLeB_total a b with h | h <;> simp_all
      have hcb : strLeB c b = true := by rcases strLeB_total b c with h | h <;> simp_all
      have hac : ¬ strLeB a c = true := by
        intro h
        have hca : strLeB c a = true := strLeB_trans c b a hcb hba
        have hce : a = c := strLeB_antisymm a c h hca
        subst hce
        exact hab hcb
      simp [maxB, hab, hbc, hac]

def minOp : Option String → Option String → Option String
  | Option.none, y => y
  | x, Option.none => x
  | Option.some a, Option.some b => Option.some (minB a b)

def maxOp : Option String → Option String → Option String
  | Option.none, y => y
  | x, Option.none => x
  | Option.some a, Option.some b => Option.some (maxB a b)

instance : Std.Commutative minOp :=
  ⟨fun a b => by
    cases a <;> cases b <;> simp [minOp]
    exact minB_comm _ _⟩

instance : Std.Associative minOp :=
  ⟨fun a b c => by
    cases a <;> cases b <;> cases c <;> simp [minOp]
    exact minB_assoc _ _ _⟩

instance : Std.Commutative maxOp :=
  ⟨fun a b => by
    cases a <;> cases b <;> simp [maxOp]
    exact maxB_comm _ _⟩

instance : Std.Associative maxOp :=
  ⟨fun a b c => by
    cases a <;> cases b <;> cases c <;> simp [maxOp]
    exact maxB_assoc _ _ _⟩

def pickMin (s : Finset String) : String :=
  (Multiset.fold minOp Option.none (s.1.map Option.some)).getD ""

def pickMax (s : Finset String) : String :=
  (Multiset.fold maxOp Option.none (s.1.map Option.some)).getD ""

theorem fold_minOp_mem (m : Multiset String) (hm : m ≠ 0) :
    ∃ x, Multiset.fold minOp Option.none (m.map Option.some) = Option.some x ∧ x ∈ m := by
  induction m using Multiset.induction_on with
  | empty => exact absurd rfl hm
  | cons a s ih =>
    rw [Multiset.map_cons, Multiset.fold_cons_left]
    by_cases hs : s = 0
    · subst hs
      exact ⟨a, by simp [minOp], Multiset.mem_cons_self a 0⟩
    · obtain ⟨x, hx, hxm⟩ := ih hs
      rw [hx]
      refine ⟨minB a x, rfl, ?_⟩
      unfold minB
      split
      · exact Multiset.mem_cons_self a s
      · exact Multiset.mem_cons_of_mem hxm

theorem fold_maxOp_mem (m : Multiset String) (hm : m ≠ 0) :
    ∃ x, Multiset.fold maxOp Option.none (m.map Option.some) = Option.some x ∧ x ∈ m := by
  induction m using Multiset.induction_on with
  | empty => exact absurd rfl hm
  | cons a s ih =>
    rw [Multiset.map_cons, Multiset.fold_cons_left]
    by_cases hs : s = 0
    · subst hs
      exact ⟨a, by simp [maxOp], Multiset.mem_cons_self a 0⟩
    · obtain ⟨x, hx, hxm⟩ := ih hs
      rw [hx]
      refine ⟨maxB a x, rfl, ?_⟩
      unfold maxB
      split
      · exact Multiset.mem_cons_of_mem hxm
      · exact Multiset.mem_cons_self a s

theorem pickMin_mem (s : Finset String) (h : s ≠ ∅) : pickMin s ∈ s := by
  have hv : s.1 ≠ 0 := by
    intro h0
    exact h (Finset.val_eq_zero.mp h0)
  obtain ⟨x, hx, hxm⟩ := fold_minOp_mem s.1 hv
  unfold pickMin
  rw [hx]
  exact hxm

theorem pickMax_mem (s : Finset String) (h : s ≠ ∅) : pickMax s ∈ s := by
  have hv : s.1 ≠ 0 := by
    intro h0
    exact h (Finset.val_eq_zero.mp h0)
  obtain ⟨x, hx, hxm⟩ := fold_maxOp_mem s.1 hv
  unfold pickMax
  rw [hx]
  exact hxm

/-! ## Crawl analysis

`pageHtml` is the observable outcome of processing one URL: the fetched
HTML when `fetch_documentation_html` returned truthy content, `none` when
the page is skipped (`if not html_content: continue`).  `crawlEdge` is one
link-discovery step, `considered` the pages the crawl can reach from the
root through processable pages, and `fetchOk` the pages whose fetch
produces truthy content. -/

/-- Truthy fetched content for a URL, `none` when the crawl skips it. -/
def pageHtml (site : Site) (up : Bool) (u : String) : Option String :=
  match fetch_documentation_html site u up with
  | Option.some h => if h = "" then Option.none else Option.some h
  | Option.none => Option.none

/-- `b` is discovered from `a`: `a`'s fetch yields truthy HTML whose
extracted links contain `b`. -/
def crawlEdge (site : Site) (up : Bool) (a b : String) : Prop :=
  ∃ h, pageHtml site up a = Option.some h ∧ b ∈ site.extractLinks h a

/-- `u` is reachable from the root through successfully processed pages. -/
def considered (site : Site) (up : Bool) (root u : String) : Prop :=
  Relation.ReflTransGen (crawlEdge site up) root u

/-- The fetch of `u` yields truthy content. -/
def fetchOk (site : Site) (up : Bool) (u : String) : Prop :=
  pageHtml site up u ≠ Option.none

instance (site : Site) (up : Bool) (u : String) : Decidable (fetchOk site up u) := by
  unfold fetchOk
  infer_instance

/-- Invariant maintained by every iteration of the crawl loop. -/
structure CrawlInv (site : Site) (up : Bool) (root : String) (st : CrawlState) : Prop where
  toVisit_sub : st.toVisit ⊆ insert root site.pages
  visited_sub : st.visited ⊆ insert root site.pages
  disj : ∀ u ∈ st.toVisit, u ∉ st.visited
  cons_toVisit : ∀ u ∈ st.toVisit, considered site up root u
  cons_visited : ∀ u ∈ st.visited, considered site up root u
  root_mem : root ∈ st.toVisit ∨ root ∈ st.visited
  closure : ∀ u ∈ st.visited, ∀ h, pageHtml site up u = Option.some h →
    ∀ v ∈ site.extractLinks h u, v ∈ st.toVisit ∨ v ∈ st.visited
  res_nodup : (st.results.map DocPage.url).Nodup
  res_sub : ∀ p ∈ st.results, p.url ∈ st.visited ∧ fetchOk site up p.url
  res_complete : ∀ u ∈ st.visited, fetchOk site up u → u ∈ st.results.map DocPage.url

/-- `parse_doc_page` records the URL it was given on the page. -/
theorem parse_doc_page_url (site : Site) (u h : String) :
    (parse_doc_page site u h).1.url = u := by
  unfold parse_doc_page
  repeat' split
  all_goals rfl

/-- The initial state satisfies the invariant. -/
theorem crawlInv_init (site : Site) (up : Bool) (root : String) :
    CrawlInv site up root (crawlInit root) := by
  unfold crawlInit
  refine ⟨?_, ?_, ?_, ?_, ?_, ?_, ?_, ?_, ?_, ?_⟩ <;> dsimp only
  · intro x hx
    rw [Finset.mem_singleton] at hx
    rw [hx]
    exact Finset.mem_insert_self _ site.pages
  · intro x hx
    exact absurd hx (Finset.not_mem_empty x)
  · intro u _ hu
    exact Finset.not_mem_empty u hu
  · intro u hu
    rw [Finset.mem_singleton] at hu
    rw [hu]
    exact Relation.ReflTransGen.refl
  · intro u hu
    exact absurd hu (Finset.not_mem_empty u)
  · exact Or.inl (Finset.mem_singleton_self root)
  · intro u hu
    exact absurd hu (Finset.not_mem_empty u)
  · exact List.nodup_nil
  · intro p hp
    exact absurd hp (List.not_mem_nil p)
  · intro u hu
    exact absurd hu (Finset.not_mem_empty u)

/-- The invariant survives an iteration that skips the popped URL (fetch
failed or returned falsy content). -/
theorem crawlInv_skip (site : Site) (up : Bool) (root : String) (st : CrawlState)
    (cur : String) (hcurmem : cur ∈ st.toVisit) (inv : CrawlInv site up root st)
    (hph : pageHtml site up cur = Option.none) :
    CrawlInv site up root
      ⟨st.toVisit.erase cur, insert cur st.visited, st.results, st.retrieved⟩ := by
  refine ⟨?_, ?_, ?_, ?_, ?_, ?_, ?_, ?_, ?_, ?_⟩ <;> dsimp only
  · intro x hx
    exact inv.toVisit_sub (Finset.mem_of_mem_erase hx)
  · intro x hx
    rcases Finset.mem_insert.mp hx with hx | hx
    · rw [hx]; exact inv.toVisit_sub hcurmem
    · exact inv.visited_sub hx
  · intro x hx hmem
    have hxe := Finset.mem_erase.mp hx
    rcases Finset.mem_insert.mp hmem with h | h
    · exact hxe.1 h
    · exact inv.disj x hxe.2 h
  · intro x hx
    exact inv.cons_toVisit x (Finset.mem_of_mem_erase hx)
  · intro x hx
    rcases Finset.mem_insert.mp hx with hx | hx
    · rw [hx]; exact inv.cons_toVisit cur hcurmem
    · exact inv.cons_visited x hx
  · rcases inv.root_mem with hr | hr
    · by_cases hrc : root = cur
      · right; rw [hrc]; exact Finset.mem_insert_self cur st.visited
      · left; exact Finset.mem_erase.mpr ⟨hrc, hr⟩
    · right; exact Finset.mem_insert_of_mem hr
  · intro u hu h hphu v hv
    rcases Finset.mem_insert.mp hu with hu | hu
    · rw [hu] at hphu
      rw [hph] at hphu
      cases hphu
    · rcases inv.closure u hu h hphu v hv with hvv | hvv
      · by_cases hvc : v = cur
        · right; rw [hvc]; exact Finset.mem_insert_self cur st.visited
        · left; exact Finset.mem_erase.mpr ⟨hvc, hvv⟩
      · right; exact Finset.mem_insert_of_mem hvv
  · exact inv.res_nodup
  · intro p hp
    exact ⟨Finset.mem_insert_of_mem (inv.res_sub p hp).1, (inv.res_sub p hp).2⟩
  · intro u hu hok
    rcases Finset.mem_insert.mp hu with hu | hu
    · rw [hu] at hok
      exact absurd hph hok
    · exact inv.res_complete u hu hok

/-- The invariant survives an iteration that processes the popped URL. -/
theorem crawlInv_proc (site : Site) (up : Bool) (root : String) (st : CrawlState)
    (cur h : String) (hcurmem : cur ∈ st.toVisit) (inv : CrawlInv site up root st)
    (hph : pageHtml site up cur = Option.some h) :
    CrawlInv site up root
      ⟨st.toVisit.erase cur ∪ (site.extractLinks h cur \ insert cur st.visited),
       insert cur st.visited,
       st.results ++ [(parse_doc_page site cur h).1],
       st.retrieved ++ (parse_doc_page site cur h).2⟩ := by
  have hcurnv : cur ∉ st.visited := inv.disj cur hcurmem
  refine ⟨?_, ?_, ?_, ?_, ?_, ?_, ?_, ?_, ?_, ?_⟩ <;> dsimp only
  · intro x hx
    rcases Finset.mem_union.mp hx with hx | hx
    · exact inv.toVisit_sub (Finset.mem_of_mem_erase hx)
    · exact Finset.mem_insert_of_mem (site.links_sub h cur (Finset.mem_sdiff.mp hx).1)
  · intro x hx
    rcases Finset.mem_insert.mp hx with hx | hx
    · rw [hx]; exact inv.toVisit_sub hcurmem
    · exact inv.visited_sub hx
  · intro x hx hmem
    rcases Finset.mem_union.mp hx with hx | hx
    · have hxe := Finset.mem_erase.mp hx
      rcases Finset.mem_insert.mp hmem with hh | hh
      · exact hxe.1 hh
      · exact inv.disj x hxe.2 hh
    · exact (Finset.mem_sdiff.mp hx).2 hmem
  · intro x hx
    rcases Finset.mem_union.mp hx with hx | hx
    · exact inv.cons_toVisit x (Finset.mem_of_mem_erase hx)
    · exact Relation.ReflTransGen.tail (inv.cons_toVisit cur hcurmem)
        ⟨h, hph, (Finset.mem_sdiff.mp hx).1⟩
  · intro x hx
    rcases Finset.mem_insert.mp hx with hx | hx
    · rw [hx]; exact inv.cons_toVisit cur hcurmem
    · exact inv.cons_visited x hx
  · rcases inv.root_mem with hr | hr
    · by_cases hrc : root = cur
      · right; rw [hrc]; exact Finset.mem_insert_self cur st.visited
      · left
        exact Finset.mem_union_left _ (Finset.mem_erase.mpr ⟨hrc, hr⟩)
    · right; exact Finset.mem_insert_of_mem hr
  · intro u hu h2 hphu v hv
    rcases Finset.mem_insert.mp hu with hu | hu
    · rw [hu] at hphu
      rw [hph] at hphu
      have hh : h = h2 := Option.some.inj hphu
      by_cases hvv : v ∈ insert cur st.visited
      · right; exact hvv
      · left
        refine Finset.mem_union_right _ (Finset.mem_sdiff.mpr ⟨?_, hvv⟩)
        rw [hh, ← hu]
        exact hv
    · rcases inv.closure u hu h2 hphu v hv with hvv | hvv
      · by_cases hvc : v = cur
        · right; rw [hvc]; exact Finset.mem_insert_self cur st.visited
        · left; exact Finset.mem_union_left _ (Finset.mem_erase.mpr ⟨hvc, hvv⟩)
      · right; exact Finset.mem_insert_of_mem hvv
  · rw [List.map_append, List.nodup_append]
    refine ⟨inv.res_nodup, List.nodup_singleton _, ?_⟩
    intro x hx hx2
    simp only [List.map_cons, List.map_nil, List.mem_singleton, parse_doc_page_url] at hx2
    rcases List.mem_map.mp hx with ⟨p, hp, hpu⟩
    have := (inv.res_sub p hp).1
    rw [hpu, hx2] at this
    exact hcurnv this
  · intro p hp
    rcases List.mem_append.mp hp with hp | hp
    · exact ⟨Finset.mem_insert_of_mem (inv.res_sub p hp).1, (inv.res_sub p hp).2⟩
    · rw [List.mem_singleton.mp hp, parse_doc_page_url]
      constructor
      · exact Finset.mem_insert_self cur st.visited
      · rw [fetchOk, hph]
        exact Option.some_ne_none h
  · intro u hu hok
    rcases Finset.mem_insert.mp hu with hu | hu
    · rw [List.map_append]
      refine List.mem_append_right _ ?_
      simp only [List.map_cons, List.map_nil, List.mem_singleton, parse_doc_page_url]
      exact hu
    · rw [List.map_append]
      exact List.mem_append_left _ (inv.res_complete u hu hok)

/-- One loop iteration preserves the invariant. -/
theorem crawlInv_step (site : Site) (up : Bool) (pick : Finset String → String)
    (hpick : ∀ s : Finset String, s ≠ ∅ → pick s ∈ s)
    (root : String) (st : CrawlState) (hne : st.toVisit ≠ ∅)
    (inv : CrawlInv site up root st) :
    CrawlInv site up root (crawlStep site up pick st) := by
  have hcurmem : pick st.toVisit ∈ st.toVisit := hpick st.toVisit hne
  have hcurnv : pick st.toVisit ∉ st.visited := inv.disj _ hcurmem
  simp only [crawlStep]
  rw [if_neg hcurnv]
  rcases hf : fetch_documentation_html site (pick st.toVisit) up with _ | html
  · dsimp only
    exact crawlInv_skip site up root st _ hcurmem inv (by simp [pageHtml, hf])
  · dsimp only
    by_cases hhtml : html = ""
    · rw [if_pos hhtml]
      exact crawlInv_skip site up root st _ hcurmem inv
        (by simp [pageHtml, hf, hhtml])
    · rw [if_neg hhtml]
      exact crawlInv_proc site up root st _ html hcurmem inv
        (by simp [pageHtml, hf, hhtml])

/-- Loop variant: lexicographic (unvisited pages, frontier size), packed
into one natural number. -/
def crawlMeasure (site : Site) (root : String) (st : CrawlState) : Nat :=
  ((insert root site.pages).card - st.visited.card) * ((insert root site.pages).card + 1)
    + st.toVisit.card

/-- Every iteration on a non-empty frontier strictly decreases the
variant. -/
theorem crawlMeasure_step (site : Site) (up : Bool) (pick : Finset String → String)
    (hpick : ∀ s : Finset String, s ≠ ∅ → pick s ∈ s)
    (root : String) (st : CrawlState) (hne : st.toVisit ≠ ∅)
    (inv : CrawlInv site up root st) :
    crawlMeasure site root (crawlStep site up pick st) < crawlMeasure site root st := by
  have hcurmem : pick st.toVisit ∈ st.toVisit := hpick st.toVisit hne
  have hcurnv : pick st.toVisit ∉ st.visited := inv.disj _ hcurmem
  have hVsub : insert (pick st.toVisit) st.visited ⊆ insert root site.pages := by
    intro x hx
    rcases Finset.mem_insert.mp hx with hx | hx
    · rw [hx]; exact inv.toVisit_sub hcurmem
    · exact inv.visited_sub hx
  have hVle : st.visited.card + 1 ≤ (insert root site.pages).card := by
    have h1 := Finset.card_le_card hVsub
    rw [Finset.card_insert_of_not_mem hcurnv] at h1
    exact h1
  have hTpos : 1 ≤ st.toVisit.card :=
    Finset.card_pos.mpr (Finset.nonempty_iff_ne_empty.mpr hne)
  have hsplit : (insert root site.pages).card - st.visited.card =
      ((insert root site.pages).card - (st.visited.card + 1)) + 1 := by omega
  simp only [crawlStep]
  rw [if_neg hcurnv]
  rcases hf : fetch_documentation_html site (pick st.toVisit) up with _ | html
  · dsimp only
    unfold crawlMeasure
    dsimp only
    rw [Finset.card_insert_of_not_mem hcurnv, Finset.card_erase_of_mem hcurmem, hsplit,
      Nat.succ_mul]
    generalize ((insert root site.pages).card - (st.visited.card + 1)) *
      ((insert root site.pages).card + 1) = p
    omega
  · dsimp only
    by_cases hhtml : html = ""
    · rw [if_pos hhtml]
      unfold crawlMeasure
      dsimp only
      rw [Finset.card_insert_of_not_mem hcurnv, Finset.card_erase_of_mem hcurmem, hsplit,
        Nat.succ_mul]
      generalize ((insert root site.pages).card - (st.visited.card + 1)) *
        ((insert root site.pages).card + 1) = p
      omega
    · rw [if_neg hhtml]
      unfold crawlMeasure
      dsimp only
      have hTsub : st.toVisit.erase (pick st.toVisit) ∪
          (site.extractLinks html (pick st.toVisit) \ insert (pick st.toVisit) st.visited) ⊆
          insert root site.pages := by
        intro x hx
        rcases Finset.mem_union.mp hx with hx | hx
        · exact inv.toVisit_sub (Finset.mem_of_mem_erase hx)
        · exact Finset.mem_insert_of_mem
            (site.links_sub html _ (Finset.mem_sdiff.mp hx).1)
      have hTle := Finset.card_le_card hTsub
      rw [Finset.card_insert_of_not_mem hcurnv, hsplit, Nat.succ_mul]
      generalize hp : ((insert root site.pages).card - (st.visited.card + 1)) *
        ((insert root site.pages).card + 1) = p
      omega

/-- With fuel exceeding the variant, the loop empties its frontier and
keeps the invariant. -/
theorem crawlLoop_reaches (site : Site) (up : Bool) (pick : Finset String → String)
    (hpick : ∀ s : Finset String, s ≠ ∅ → pick s ∈ s) (root : String) :
    ∀ (n : Nat) (st : CrawlState), CrawlInv site up root st →
      crawlMeasure site root st < n →
      (crawlLoop site up pick n st).toVisit = ∅ ∧
      CrawlInv site up root (crawlLoop site up pick n st) := by
  intro n
  induction n with
  | zero => intro st _ hm; omega
  | succ n ih =>
    intro st inv hm
    rw [crawlLoop]
    by_cases hv : st.toVisit = ∅
    · rw [if_pos hv]
      exact ⟨hv, inv⟩
    · rw [if_neg hv]
      refine ih _ (crawlInv_step site up pick hpick root st hv inv) ?_
      have := crawlMeasure_step site up pick hpick root st hv inv
      omega

/-- The crawl's final state: the frontier is exhausted (the Python
`while` loop terminates) and the invariant holds. -/
theorem crawlFinal_spec (site : Site) (up : Bool) (pick : Finset String → String)
    (hpick : ∀ s : Finset String, s ≠ ∅ → pick s ∈ s) (root : String) :
    (crawlFinal site up pick root).toVisit = ∅ ∧
    CrawlInv site up root (crawlFinal site up pick root) := by
  refine crawlLoop_reaches site up pick hpick root _ _ (crawlInv_init site up root) ?_
  unfold crawlMeasure crawlInit crawlFuel
  dsimp only
  rw [Finset.card_empty, Finset.card_singleton, Nat.sub_zero]
  have hq : ((insert root site.pages).card + 2) * ((insert root site.pages).card + 2) =
      (insert root site.pages).card * ((insert root site.pages).card + 1) +
        (3 * (insert root site.pages).card + 4) := by ring
  rw [hq]
  omega

/-- At a terminal state, the visited set is exactly the considered set. -/
theorem terminal_visited_iff (site : Site) (up : Bool) (root : String) (st : CrawlState)
    (inv : CrawlInv site up root st) (hT : st.toVisit = ∅) (u : String) :
    u ∈ st.visited ↔ considered site up root u := by
  constructor
  · exact inv.cons_visited u
  · intro hc
    induction hc with
    | refl =>
      rcases inv.root_mem with hr | hr
      · rw [hT] at hr
        exact absurd hr (Finset.not_mem_empty root)
      · exact hr
    | tail hab hedge ih =>
      rcases hedge with ⟨h, hph, hmem⟩
      rcases inv.closure _ ih h hph _ hmem with hv | hv
      · rw [hT] at hv
        exact absurd hv (Finset.not_mem_empty _)
      · exact hv

/-- At a terminal state, the emitted page URLs are exactly the considered
URLs whose fetch yields truthy content. -/
theorem terminal_results_iff (site : Site) (up : Bool) (root : String) (st : CrawlState)
    (inv : CrawlInv site up root st) (hT : st.toVisit = ∅) (u : String) :
    u ∈ st.results.map DocPage.url ↔
      considered site up root u ∧ fetchOk site up u := by
  constructor
  · intro hu
    rcases List.mem_map.mp hu with ⟨p, hp, hpu⟩
    obtain ⟨hv, hok⟩ := inv.res_sub p hp
    rw [← hpu]
    exact ⟨inv.cons_visited _ hv, hok⟩
  · rintro ⟨hc, hok⟩
    exact inv.res_complete u ((terminal_visited_iff site up root st inv hT u).mpr hc) hok

/-- Every considered URL lies in the root-extended page universe. -/
theorem considered_mem (site : Site) (up : Bool) (root u : String)
    (h : considered site up root u) : u ∈ insert root site.pages := by
  induction h with
  | refl => exact Finset.mem_insert_self root site.pages
  | tail hab hedge ih =>
    rcases hedge with ⟨hh, hph, hmem⟩
    exact Finset.mem_insert_of_mem (site.links_sub hh _ hmem)

/-- C1: on a finite link graph whose pages are all fetchable, the crawl
terminates (the frontier provably empties within the supplied fuel) and
returns a sequence of pages in which every URL reachable from the root
appears exactly once (`Nodup` plus the membership equivalence), for every
pop-order oracle, i.e. independent of traversal order. -/
theorem crawl_returns_each_reachable_page_once (site : Site) (up : Bool)
    (pick : Finset String → String)
    (hpick : ∀ s : Finset String, s ≠ ∅ → pick s ∈ s)
    (root : String) (hroot : root ≠ "")
    (hfetch : ∀ u ∈ insert root site.pages, fetchOk site up u) :
    (crawlFinal site up pick root).toVisit = ∅ ∧
    ((parse_api_documentation site up pick root).map DocPage.url).Nodup ∧
    ∀ u, u ∈ (parse_api_documentation site up pick root).map DocPage.url ↔
      considered site up root u := by
  obtain ⟨hT, inv⟩ := crawlFinal_spec site up pick hpick root
  have hres : parse_api_documentation site up pick root =
      (crawlFinal site up pick root).results := by
    unfold parse_api_documentation
    rw [if_neg hroot]
  refine ⟨hT, ?_, ?_⟩
  · rw [hres]
    exact inv.res_nodup
  · intro u
    rw [hres, terminal_results_iff site up root _ inv hT u]
    constructor
    · rintro ⟨hc, _⟩
      exact hc
    · intro hc
      exact ⟨hc, hfetch u (considered_mem site up root u hc)⟩

/-- C5: the crawl completes for every site (frontier empties), pages whose
fetch fails are skipped (they never appear in the results), and the
returned pages are exactly the reachable ones whose fetch yields content,
each exactly once. -/
theorem crawl_skips_failed_fetch_pages (site : Site) (up : Bool)
    (pick : Finset String → String)
    (hpick : ∀ s : Finset String, s ≠ ∅ → pick s ∈ s)
    (root : String) (hroot : root ≠ "") :
    (crawlFinal site up pick root).toVisit = ∅ ∧
    ((parse_api_documentation site up pick root).map DocPage.url).Nodup ∧
    (∀ u, u ∈ (parse_api_documentation site up pick root).map DocPage.url ↔
      considered site up root u ∧ fetchOk site up u) ∧
    ∀ u, ¬ fetchOk site up u →
      u ∉ (parse_api_documentation site up pick root).map DocPage.url := by
  obtain ⟨hT, inv⟩ := crawlFinal_spec site up pick hpick root
  have hres : parse_api_documentation site up pick root =
      (crawlFinal site up pick root).results := by
    unfold parse_api_documentation
    rw [if_neg hroot]
  refine ⟨hT, ?_, ?_, ?_⟩
  · rw [hres]
    exact inv.res_nodup
  · intro u
    rw [hres]
    exact terminal_results_iff site up root _ inv hT u
  · intro u hnok hu
    rw [hres, terminal_results_iff site up root _ inv hT u] at hu
    exact hnok hu.2

/-- C3 (amended): the set of returned page URLs does not depend on the pop
order of the frontier set; only the order of the returned sequence does. -/
theorem crawl_page_set_independent_of_pop_order (site : Site) (up : Bool)
    (p1 p2 : Finset String → String)
    (h1 : ∀ s : Finset String, s ≠ ∅ → p1 s ∈ s)
    (h2 : ∀ s : Finset String, s ≠ ∅ → p2 s ∈ s)
    (root : String) :
    ((parse_api_documentation site up p1 root).map DocPage.url).toFinset =
    ((parse_api_documentation site up p2 root).map DocPage.url).toFinset := by
  by_cases hroot : root = ""
  · rw [hroot]
    rfl
  · obtain ⟨hT1, inv1⟩ := crawlFinal_spec site up p1 h1 root
    obtain ⟨hT2, inv2⟩ := crawlFinal_spec site up p2 h2 root
    have hres1 : parse_api_documentation site up p1 root =
        (crawlFinal site up p1 root).results := by
      unfold parse_api_documentation
      rw [if_neg hroot]
    have hres2 : parse_api_documentation site up p2 root =
        (crawlFinal site up p2 root).results := by
      unfold parse_api_documentation
      rw [if_neg hroot]
    ext u
    simp only [List.mem_toFinset]
    rw [hres1, hres2, terminal_results_iff site up root _ inv1 hT1 u,
      terminal_results_iff site up root _ inv2 hT2 u]

/-- C4 (amended): there is no whole-crawl retry with rendering.  When
rendering is disabled and the root page's fetch yields no usable content,
the crawl simply returns the empty list. -/
theorem crawl_root_static_failure_yields_empty (site : Site)
    (pick : Finset String → String)
    (hpick : ∀ s : Finset String, s ≠ ∅ → pick s ∈ s)
    (root : String) (hroot : root ≠ "")
    (hfail : pageHtml site false root = Option.none) :
    parse_api_documentation site false pick root = [] := by
  obtain ⟨hT, inv⟩ := crawlFinal_spec site false pick hpick root
  have hempty : (crawlFinal site false pick root).results.map DocPage.url = [] := by
    rw [List.eq_nil_iff_forall_not_mem]
    intro u hu
    rcases (terminal_results_iff site false root _ inv hT u).mp hu with ⟨hc, hok⟩
    rcases Relation.ReflTransGen.cases_head hc with heq | ⟨b, hedge, _⟩
    · rw [← heq] at hok
      exact hok hfail
    · rcases hedge with ⟨h, hph, _⟩
      rw [hfail] at hph
      cases hph
  have hnil : (crawlFinal site false pick root).results = [] :=
    List.map_eq_nil.mp hempty
  unfold parse_api_documentation
  rw [if_neg hroot]
  exact hnil

/-- C9 (amended): an empty root URL does not fail the operation; the crawl
returns the empty list, the same value any fruitless crawl returns. -/
theorem empty_root_short_circuits_to_nil (site : Site) (up : Bool)
    (pick : Finset String → String) :
    parse_api_documentation site up pick "" = [] := by
  unfold parse_api_documentation
  rw [if_pos rfl]

/-! ## Concrete sites for the claims' examples

`bigBody` is a 301-character body, above the 300-character threshold of
`fetch_documentation_html`.  In each site the BeautifulSoup-backed oracles
dispatch on the page URL (the second argument of `extract_doc_links` /
`find_spec_link`), which determines the answer uniquely here because each
URL carries one fixed HTML body. -/

/-- A static body just above the 300-character threshold. -/
def bigBody : String := String.mk (List.replicate 301 'x')

/-- The five-page graph of C1: a→b, b→{c,d}, c→{a,e}; every page fetches
statically. -/
def siteFive : Site where
  pages := {"a", "b", "c", "d", "e"}
  get := fun _ => Option.some ⟨200, bigBody⟩
  render := fun _ => Option.none
  extractLinks := fun _ u =>
    if u = "a" then {"b"} else if u = "b" then {"c", "d"}
    else if u = "c" then {"a", "e"} else ∅
  links_sub := by intro h u; dsimp only; split_ifs <;> decide
  titleOf := fun _ => ""
  contentOf := fun _ => ""
  findSpecLink := fun _ _ => Option.none
  retrieveSpec := fun _ => Option.none
  yamlParse := fun _ => Option.none

/-- The two-page graph of C2: p→q, and both pages carry the same spec
reference `S`. -/
def siteSharedSpec : Site where
  pages := {"p", "q"}
  get := fun _ => Option.some ⟨200, bigBody⟩
  render := fun _ => Option.none
  extractLinks := fun _ u => if u = "p" then {"q"} else ∅
  links_sub := by intro h u; dsimp only; split_ifs <;> decide
  titleOf := fun _ => ""
  contentOf := fun _ => ""
  findSpecLink := fun _ u =>
    if u = "p" ∨ u = "q" then Option.some "S" else Option.none
  retrieveSpec := fun _ => Option.none
  yamlParse := fun _ => Option.none

/-- The three-page graph of C3: m→{n,o}. -/
def siteFork : Site where
  pages := {"m", "n", "o"}
  get := fun _ => Option.some ⟨200, bigBody⟩
  render := fun _ => Option.none
  extractLinks := fun _ u => if u = "m" then {"n", "o"} else ∅
  links_sub := by intro h u; dsimp only; split_ifs <;> decide
  titleOf := fun _ => ""
  contentOf := fun _ => ""
  findSpecLink := fun _ _ => Option.none
  retrieveSpec := fun _ => Option.none
  yamlParse := fun _ => Option.none

/-- The site of C4: the root `r`'s static fetch fails, while the renderer
would produce content. -/
def siteRenderOnly : Site where
  pages := {"r"}
  get := fun _ => Option.none
  render := fun u => if u = "r" then Option.some "rendered shell content" else Option.none
  extractLinks := fun _ _ => (∅ : Finset String)
  links_sub := by intro h u; exact Finset.empty_subset _
  titleOf := fun _ => ""
  contentOf := fun _ => ""
  findSpecLink := fun _ _ => Option.none
  retrieveSpec := fun _ => Option.none
  yamlParse := fun _ => Option.none

/-- The two-page graph of C5: x→y, and y's fetch always fails. -/
def siteDeadLink : Site where
  pages := {"x", "y"}
  get := fun u => if u = "x" then Option.some ⟨200, bigBody⟩ else Option.none
  render := fun _ => Option.none
  extractLinks := fun _ u => if u = "x" then {"y"} else ∅
  links_sub := by intro h u; dsimp only; split_ifs <;> decide
  titleOf := fun _ => ""
  contentOf := fun _ => ""
  findSpecLink := fun _ _ => Option.none
  retrieveSpec := fun _ => Option.none
  yamlParse := fun _ => Option.none

/-- The site of C9: no page is fetchable at all. -/
def siteUnreachable : Site where
  pages := ∅
  get := fun _ => Option.none
  render := fun _ => Option.none
  extractLinks := fun _ _ => (∅ : Finset String)
  links_sub := by intro h u; exact Finset.empty_subset _
  titleOf := fun _ => ""
  contentOf := fun _ => ""
  findSpecLink := fun _ _ => Option.none
  retrieveSpec := fun _ => Option.none
  yamlParse := fun _ => Option.none

set_option maxRecDepth 40000 in
/-- C1 witness: on the five-page graph the crawl (with the least-element
pop order) terminates, emits each URL at most once, characterizes its
output by reachability, and returns exactly 5 pages, one per page of the
graph. -/
theorem crawl_returns_each_reachable_page_once_witness :
    ((crawlFinal siteFive false pickMin "a").toVisit = ∅ ∧
     ((parse_api_documentation siteFive false pickMin "a").map DocPage.url).Nodup ∧
     ∀ u, u ∈ (parse_api_documentation siteFive false pickMin "a").map DocPage.url ↔
       considered siteFive false "a" u) ∧
    (parse_api_documentation siteFive false pickMin "a").map DocPage.url =
      ["a", "b", "c", "d", "e"] :=
  ⟨crawl_returns_each_reachable_page_once siteFive false pickMin pickMin_mem "a"
      (by decide) (by decide),
   by decide⟩

set_option maxRecDepth 40000 in
/-- C2 (code bug): crawling the two-page site whose pages both reference
spec URL `S` performs the spec retrieval twice — once per page — showing
that `parse_doc_page` deduplicates nothing across pages: the retrieval log
is `[S, S]`. -/
theorem spec_url_retrieved_twice_for_two_pages :
    (crawlFinal siteSharedSpec false pickMin "p").retrieved = ["S", "S"] ∧
    ((crawlFinal siteSharedSpec false pickMin "p").retrieved.count "S") = 2 := by
  constructor <;> decide

set_option maxRecDepth 40000 in
/-- C3 counterexample: two legitimate `set.pop` behaviors (least- and
greatest-element) yield different emission orders on the same site and
root, so the crawl does not visit frontier URLs in one fixed order — in
particular not FIFO insertion order. -/
theorem crawl_emit_order_depends_on_pop_order :
    (parse_api_documentation siteFork false pickMin "m").map DocPage.url = ["m", "n", "o"] ∧
    (parse_api_documentation siteFork false pickMax "m").map DocPage.url = ["m", "o", "n"] ∧
    (parse_api_documentation siteFork false pickMin "m").map DocPage.url ≠
      (parse_api_documentation siteFork false pickMax "m").map DocPage.url := by
  refine ⟨by decide, by decide, ?_⟩
  intro h
  rw [show (parse_api_documentation siteFork false pickMin "m").map DocPage.url =
    ["m", "n", "o"] from by decide] at h
  rw [show (parse_api_documentation siteFork false pickMax "m").map DocPage.url =
    ["m", "o", "n"] from by decide] at h
  exact absurd h (by decide)

/-- C3 witness (amended claim): on the same fork site, the two pop orders
return the same set of page URLs. -/
theorem crawl_page_set_independent_of_pop_order_witness :
    ((parse_api_documentation siteFork false pickMin "m").map DocPage.url).toFinset =
    ((parse_api_documentation siteFork false pickMax "m").map DocPage.url).toFinset :=
  crawl_page_set_independent_of_pop_order siteFork false pickMin pickMax
    pickMin_mem pickMax_mem "m"

set_option maxRecDepth 40000 in
/-- C4 counterexample: for a root whose static fetch fails while rendering
would succeed, the crawl invoked without rendering returns `[]` — no
second rendering pass happens — although the same crawl with rendering
enabled returns the root page.  A re-attempt with rendering enabled, as
the claim states, would have produced that page. -/
theorem crawl_not_reattempted_with_rendering :
    parse_api_documentation siteRenderOnly false pickMin "r" = [] ∧
    (parse_api_documentation siteRenderOnly true pickMin "r").map DocPage.url = ["r"] := by
  constructor
  · rfl
  · decide

/-- C4 witness (amended claim): applying the no-retry theorem at the
concrete render-only site. -/
theorem crawl_root_static_failure_yields_empty_witness :
    parse_api_documentation siteRenderOnly false pickMin "r" = [] :=
  crawl_root_static_failure_yields_empty siteRenderOnly pickMin pickMin_mem "r"
    (by decide) (by decide)

set_option maxRecDepth 40000 in
/-- C5 witness: on the graph x→y where y's fetch always fails, the crawl
completes and returns exactly one page, for x. -/
theorem crawl_skips_failed_fetch_pages_witness :
    ((crawlFinal siteDeadLink false pickMin "x").toVisit = ∅ ∧
     ((parse_api_documentation siteDeadLink false pickMin "x").map DocPage.url).Nodup ∧
     (∀ u, u ∈ (parse_api_documentation siteDeadLink false pickMin "x").map DocPage.url ↔
       considered siteDeadLink false "x" u ∧ fetchOk siteDeadLink false u) ∧
     ∀ u, ¬ fetchOk siteDeadLink false u →
       u ∉ (parse_api_documentation siteDeadLink false pickMin "x").map DocPage.url) ∧
    (parse_api_documentation siteDeadLink false pickMin "x").map DocPage.url = ["x"] :=
  ⟨crawl_skips_failed_fetch_pages siteDeadLink false pickMin pickMin_mem "x" (by decide),
   by decide⟩

/-- C9 counterexample: the crawl on an empty root URL returns `[]` as an
ordinary value — no exception, no failure channel — and this is exactly
the same result as a normal crawl of a root whose fetch merely fails, so
an empty/invalid root is *not* distinguished as a fatal error. -/
theorem empty_root_returns_normal_empty_result :
    parse_api_documentation siteUnreachable false pickMin "" = [] ∧
    parse_api_documentation siteUnreachable false pickMin "z" = [] := by
  constructor
  · rfl
  · rfl

/-- C6: the static fetch succeeds exactly when `raise_for_status` does not
raise (status outside 400-599) and the body exceeds 300 characters; a body
of at most 300 characters (e.g. 250) is insufficient, escalating to the
renderer when `use_playwright` is true and yielding `None` when it is
false. -/
theorem fetch_static_requires_success_and_min_length (site : Site) (url : String)
    (hurl : url ≠ "") (r : HttpResp) (hget : site.get url = Option.some r) :
    (fetchStatic site url = Option.some r.body ↔
      (¬ (400 ≤ r.status ∧ r.status < 600) ∧ 300 < r.body.length)) ∧
    (r.body.length ≤ 300 →
      fetch_documentation_html site url true = site.render url ∧
      fetch_documentation_html site url false = Option.none) := by
  constructor
  · constructor
    · intro h
      unfold fetchStatic at h
      rw [hget] at h
      dsimp only at h
      by_cases hs : 400 ≤ r.status ∧ r.status < 600
      · rw [if_pos hs] at h
        cases h
      · rw [if_neg hs] at h
        by_cases hl : 300 < r.body.length
        · exact ⟨hs, hl⟩
        · rw [if_neg hl] at h
          cases h
    · rintro ⟨hs, hl⟩
      unfold fetchStatic
      rw [hget]
      dsimp only
      rw [if_neg hs, if_pos hl]
  · intro hle
    have hstat : fetchStatic site url = Option.none := by
      unfold fetchStatic
      rw [hget]
      dsimp only
      by_cases hs : 400 ≤ r.status ∧ r.status < 600
      · rw [if_pos hs]
      · rw [if_neg hs, if_neg (show ¬ 300 < r.body.length by omega)]
    constructor
    · simp [fetch_documentation_html, hurl, hstat]
    · simp [fetch_documentation_html, hurl, hstat]

/-- The site of C6: URL `w` answers HTTP 200 with a 250-character body; the
renderer would answer with rendered content. -/
def siteShortBody : Site where
  pages := ∅
  get := fun u =>
    if u = "w" then Option.some ⟨200, String.mk (List.replicate 250 'x')⟩ else Option.none
  render := fun u => if u = "w" then Option.some "RENDERED" else Option.none
  extractLinks := fun _ _ => (∅ : Finset String)
  links_sub := by intro h u; exact Finset.empty_subset _
  titleOf := fun _ => ""
  contentOf := fun _ => ""
  findSpecLink := fun _ _ => Option.none
  retrieveSpec := fun _ => Option.none
  yamlParse := fun _ => Option.none

set_option maxRecDepth 40000 in
/-- C6 witness: the 250-character 200-response is insufficient — the static
fetch does not return it — and the gateway escalates to the renderer with
`use_playwright=true` and fails with `use_playwright=false`. -/
theorem fetch_static_requires_success_and_min_length_witness :
    ((fetchStatic siteShortBody "w" =
        Option.some (HttpResp.body ⟨200, String.mk (List.replicate 250 'x')⟩) ↔
      (¬ (400 ≤ HttpResp.status ⟨200, String.mk (List.replicate 250 'x')⟩ ∧
          HttpResp.status ⟨200, String.mk (List.replicate 250 'x')⟩ < 600) ∧
        300 < (HttpResp.body ⟨200, String.mk (List.replicate 250 'x')⟩).length)) ∧
     ((HttpResp.body ⟨200, String.mk (List.replicate 250 'x')⟩).length ≤ 300 →
       fetch_documentation_html siteShortBody "w" true = siteShortBody.render "w" ∧
       fetch_documentation_html siteShortBody "w" false = Option.none)) ∧
    fetch_documentation_html siteShortBody "w" true = Option.some "RENDERED" ∧
    fetch_documentation_html siteShortBody "w" false = Option.none :=
  ⟨fetch_static_requires_success_and_min_length siteShortBody "w" (by decide)
      ⟨200, String.mk (List.replicate 250 'x')⟩ rfl,
   by decide, by decide⟩

/-- C10: for the input `plain prose` — not valid JSON, and parsed by YAML
as a bare string scalar — `parse_api_spec` returns a value that is neither
`None` nor a dict, despite the function's `Optional[Dict]` annotation. -/
theorem parsed_spec_may_be_non_mapping (yamlParse : String → Option PyVal)
    (hy : yamlParse "plain prose" = Option.some (PyVal.pystr "plain prose")) :
    parse_api_spec yamlParse "plain prose" = PyVal.pystr "plain prose" ∧
    parse_api_spec yamlParse "plain prose" ≠ PyVal.pynone ∧
    ∀ l, parse_api_spec yamlParse "plain prose" ≠ PyVal.pydict l := by
  have hj : jloads "plain prose" = Option.none := rfl
  have hmain : parse_api_spec yamlParse "plain prose" = PyVal.pystr "plain prose" := by
    unfold parse_api_spec
    rw [if_neg (show ¬ ("plain prose" = "") by decide), hj, hy]
  refine ⟨hmain, ?_, ?_⟩
  · rw [hmain]
    intro h
    exact PyVal.noConfusion h
  · intro l
    rw [hmain]
    intro h
    exact PyVal.noConfusion h

/-- A concrete YAML oracle behaving as `yaml.safe_load` does on the input
`plain prose` (a bare scalar parses to the string itself). -/
def proseYaml : String → Option PyVal := fun t =>
  if t = "plain prose" then Option.some (PyVal.pystr "plain prose") else Option.none

/-- C10 witness: the concrete YAML oracle exhibits the non-mapping parsed
spec. -/
theorem parsed_spec_may_be_non_mapping_witness :
    parse_api_spec proseYaml "plain prose" = PyVal.pystr "plain prose" ∧
    parse_api_spec proseYaml "plain prose" ≠ PyVal.pynone ∧
    ∀ l, parse_api_spec proseYaml "plain prose" ≠ PyVal.pydict l :=
  parsed_spec_may_be_non_mapping proseYaml rfl

/-! ## Round trip: string escaping

The serializer's `escChar`/`escapeChars` and the parser's
`escDecode`/`parseStrBody` are mutually inverse on every Lean string. -/

theorem readHexDigit_hexDigitChar (d : Nat) (hd : d < 16) :
    readHexDigit (hexDigitChar d) = Option.some d := by
  interval_cases d <;> rfl

theorem readHex4_hex4 (n : Nat) (hn : n < 65536) :
    readHex4 (hexDigitChar (n / 4096 % 16)) (hexDigitChar (n / 256 % 16))
      (hexDigitChar (n / 16 % 16)) (hexDigitChar (n % 16)) = Option.some n := by
  rw [readHex4, readHexDigit_hexDigitChar _ (Nat.mod_lt _ (by norm_num)),
    readHexDigit_hexDigitChar _ (Nat.mod_lt _ (by norm_num)),
    readHexDigit_hexDigitChar _ (Nat.mod_lt _ (by norm_num)),
    readHexDigit_hexDigitChar _ (Nat.mod_lt _ (by norm_num))]
  dsimp only
  congr 1
  omega

theorem parseStrBody_succ_quote (fuel : Nat) (s : List Char) :
    parseStrBody (fuel + 1) ('"' :: s) = Option.some ([], s) := by
  rw [parseStrBody.eq_def]
  dsimp only
  rw [if_pos rfl]

theorem parseStrBody_succ_plain (fuel : Nat) (c : Char) (s : List Char) (h1 : ¬ c = '"')
    (h2 : ¬ c = '\\') (h3 : ¬ c.toNat < 32) :
    parseStrBody (fuel + 1) (c :: s) = consStr c (parseStrBody fuel s) := by
  rw [parseStrBody.eq_def]
  dsimp only
  rw [if_neg h1, if_neg h2, if_neg h3]

theorem parseStrBody_succ_esc (fuel : Nat) (e : Char) (s : List Char)
    (d : Char) (s' : List Char) (hd : escDecode e s = Option.some (d, s')) :
    parseStrBody (fuel + 1) ('\\' :: e :: s) = consStr d (parseStrBody fuel s') := by
  rw [parseStrBody.eq_def]
  dsimp only
  rw [if_neg (by decide : ¬ ('\\' : Char) = '"'), if_pos rfl, hd]

theorem consStr_some (c : Char) (p : List Char × List Char) :
    consStr c (Option.some p) = Option.some (c :: p.1, p.2) := rfl


theorem escDecode_quote (s : List Char) : escDecode '"' s = Option.some ('"', s) := by
  simp +decide [escDecode]

theorem escDecode_backslash (s : List Char) : escDecode '\\' s = Option.some ('\\', s) := by
  simp +decide [escDecode]

theorem escDecode_b (s : List Char) : escDecode 'b' s = Option.some (Char.ofNat 8, s) := by
  simp +decide [escDecode]

theorem escDecode_t (s : List Char) : escDecode 't' s = Option.some (Char.ofNat 9, s) := by
  simp +decide [escDecode]

theorem escDecode_n (s : List Char) : escDecode 'n' s = Option.some (Char.ofNat 10, s) := by
  simp +decide [escDecode]

theorem escDecode_f (s : List Char) : escDecode 'f' s = Option.some (Char.ofNat 12, s) := by
  simp +decide [escDecode]

theorem escDecode_r (s : List Char) : escDecode 'r' s = Option.some (Char.ofNat 13, s) := by
  simp +decide [escDecode]

theorem escDecode_unicode (d1 d2 d3 d4 : Char) (n : Nat) (s : List Char)
    (hhex : readHex4 d1 d2 d3 d4 = Option.some n)
    (hlo : ¬ (55296 ≤ n ∧ n < 56320)) (hhi : ¬ (56320 ≤ n ∧ n < 57344)) :
    escDecode 'u' (d1 :: d2 :: d3 :: d4 :: s) = Option.some (Char.ofNat n, s) := by
  rw [escDecode]
  simp +decide only [reduceIte]
  rw [hhex]
  dsimp only
  rw [if_neg hlo, if_neg hhi]

theorem escDecode_surrogate (d1 d2 d3 d4 e1 e2 e3 e4 : Char) (n m : Nat) (s : List Char)
    (hhex1 : readHex4 d1 d2 d3 d4 = Option.some n)
    (hhex2 : readHex4 e1 e2 e3 e4 = Option.some m)
    (hn : 55296 ≤ n ∧ n < 56320) (hm : 56320 ≤ m ∧ m < 57344) :
    escDecode 'u' (d1 :: d2 :: d3 :: d4 :: '\\' :: 'u' :: e1 :: e2 :: e3 :: e4 :: s) =
      Option.some (Char.ofNat (65536 + (n - 55296) * 1024 + (m - 56320)), s) := by
  rw [escDecode]
  simp +decide only [reduceIte]
  rw [hhex1]
  try dsimp only
  rw [if_pos hn]
  try dsimp only
  try rw [if_pos (by decide : ('\\' : Char) = '\\' ∧ ('u' : Char) = 'u')]
  try dsimp only
  rw [hhex2]
  try dsimp only
  rw [if_pos hm]

theorem parseStrBody_escape (cs : List Char) : ∀ (rest : List Char) (fuel : Nat),
    cs.length + 1 ≤ fuel →
    parseStrBody fuel (escapeChars cs ++ ('"' :: rest)) = Option.some (cs, rest) := by
  induction cs with
  | nil =>
    intro rest fuel hf
    obtain ⟨f, rfl⟩ : ∃ f, fuel = f + 1 := ⟨fuel - 1, by omega⟩
    rw [escapeChars, List.nil_append, parseStrBody_succ_quote]
  | cons c cs ih =>
    intro rest fuel hf
    obtain ⟨f, rfl⟩ : ∃ f, fuel = f + 1 := ⟨fuel - 1, by omega⟩
    have hf' : cs.length + 1 ≤ f := by
      simp only [List.length_cons] at hf
      omega
    have hvalid : c.toNat < 55296 ∨ (57344 ≤ c.toNat ∧ c.toNat < 1114112) := c.valid
    rw [escapeChars, List.append_assoc]
    by_cases h1 : c = '"'
    · rw [show escChar c = ['\\', '"'] from by rw [escChar, if_pos h1]]
      simp only [List.cons_append, List.nil_append]
      rw [parseStrBody_succ_esc f '"' _ '"' _ (escDecode_quote _),
        ih rest f hf', consStr_some]
      rw [h1]
    · by_cases h2 : c = '\\'
      · rw [show escChar c = ['\\', '\\'] from by rw [escChar, if_neg h1, if_pos h2]]
        simp only [List.cons_append, List.nil_append]
        rw [parseStrBody_succ_esc f '\\' _ '\\' _ (escDecode_backslash _),
          ih rest f hf', consStr_some]
        rw [h2]
      · by_cases h3 : c.toNat = 8
        · rw [show escChar c = ['\\', 'b'] from by
            rw [escChar, if_neg h1, if_neg h2, if_pos h3]]
          simp only [List.cons_append, List.nil_append]
          rw [parseStrBody_succ_esc f 'b' _ (Char.ofNat 8) _ (escDecode_b _),
            ih rest f hf', consStr_some,
            show Char.ofNat 8 = c from by rw [← h3, Char.ofNat_toNat]]
        · by_cases h4 : c.toNat = 9
          · rw [show escChar c = ['\\', 't'] from by
              rw [escChar, if_neg h1, if_neg h2, if_neg h3, if_pos h4]]
            simp only [List.cons_append, List.nil_append]
            rw [parseStrBody_succ_esc f 't' _ (Char.ofNat 9) _ (escDecode_t _),
              ih rest f hf', consStr_some,
              show Char.ofNat 9 = c from by rw [← h4, Char.ofNat_toNat]]
          · by_cases h5 : c.toNat = 10
            · rw [show escChar c = ['\\', 'n'] from by
                rw [escChar, if_neg h1, if_neg h2, if_neg h3, if_neg h4, if_pos h5]]
              simp only [List.cons_append, List.nil_append]
              rw [parseStrBody_succ_esc f 'n' _ (Char.ofNat 10) _ (escDecode_n _),
                ih rest f hf', consStr_some,
                show Char.ofNat 10 = c from by rw [← h5, Char.ofNat_toNat]]
            · by_cases h6 : c.toNat = 12
              · rw [show escChar c = ['\\', 'f'] from by
                  rw [escChar, if_neg h1, if_neg h2, if_neg h3, if_neg h4, if_neg h5,
                    if_pos h6]]
                simp only [List.cons_append, List.nil_append]
                rw [parseStrBody_succ_esc f 'f' _ (Char.ofNat 12) _ (escDecode_f _),
                  ih rest f hf', consStr_some,
                  show Char.ofNat 12 = c from by rw [← h6, Char.ofNat_toNat]]
              · by_cases h7 : c.toNat = 13
                · rw [show escChar c = ['\\', 'r'] from by
                    rw [escChar, if_neg h1, if_neg h2, if_neg h3, if_neg h4, if_neg h5,
                      if_neg h6, if_pos h7]]
                  simp only [List.cons_append, List.nil_append]
                  rw [parseStrBody_succ_esc f 'r' _ (Char.ofNat 13) _ (escDecode_r _),
                    ih rest f hf', consStr_some,
                    show Char.ofNat 13 = c from by rw [← h7, Char.ofNat_toNat]]
                · by_cases h8 : 32 ≤ c.toNat ∧ c.toNat ≤ 126
                  · rw [show escChar c = [c] from by
                      rw [escChar, if_neg h1, if_neg h2, if_neg h3, if_neg h4, if_neg h5,
                        if_neg h6, if_neg h7, if_pos h8]]
                    simp only [List.cons_append, List.nil_append]
                    rw [parseStrBody_succ_plain f c _ h1 h2 (by omega),
                      ih rest f hf', consStr_some]
                  · by_cases h9 : c.toNat < 65536
                    · rw [show escChar c = '\\' :: 'u' :: hex4 c.toNat from by
                        rw [escChar, if_neg h1, if_neg h2, if_neg h3, if_neg h4, if_neg h5,
                          if_neg h6, if_neg h7, if_neg h8, if_pos h9]]
                      simp only [hex4, List.cons_append, List.nil_append]
                      rw [parseStrBody_succ_esc f 'u' _ (Char.ofNat c.toNat) _
                          (escDecode_unicode _ _ _ _ c.toNat _
                            (readHex4_hex4 c.toNat h9) (by omega) (by omega)),
                        ih rest f hf', consStr_some, Char.ofNat_toNat]
                    · rw [show escChar c =
                          ('\\' :: 'u' :: hex4 (55296 + (c.toNat - 65536) / 1024)) ++
                          ('\\' :: 'u' :: hex4 (56320 + (c.toNat - 65536) % 1024)) from by
                        rw [escChar, if_neg h1, if_neg h2, if_neg h3, if_neg h4, if_neg h5,
                          if_neg h6, if_neg h7, if_neg h8, if_neg h9]]
                      have hk : c.toNat - 65536 < 1048576 := by omega
                      have hdiv : (c.toNat - 65536) / 1024 < 1024 := by omega
                      have hmod : (c.toNat - 65536) % 1024 < 1024 :=
                        Nat.mod_lt _ (by norm_num)
                      simp only [hex4, List.cons_append, List.nil_append, List.append_assoc]
                      rw [parseStrBody_succ_esc f 'u' _
                          (Char.ofNat (65536 +
                            (55296 + (c.toNat - 65536) / 1024 - 55296) * 1024 +
                            (56320 + (c.toNat - 65536) % 1024 - 56320))) _
                          (escDecode_surrogate _ _ _ _ _ _ _ _ _ _ _
                            (readHex4_hex4 _ (by omega)) (readHex4_hex4 _ (by omega))
                            (by omega) (by omega)),
                        ih rest f hf', consStr_some,
                        show 65536 + (55296 + (c.toNat - 65536) / 1024 - 55296) * 1024 +
                            (56320 + (c.toNat - 65536) % 1024 - 56320) = c.toNat from by
                          have := Nat.div_add_mod (c.toNat - 65536) 1024
                          omega,
                        Char.ofNat_toNat]

/-! ## Round trip: numbers -/

/-- Head of the remaining input cannot extend or float-ify a number token. -/
def numStop : List Char → Prop
  | [] => True
  | c :: _ => c.isDigit = false ∧ ¬ c = '.' ∧ ¬ c = 'e' ∧ ¬ c = 'E'

theorem decChar_isDigit (d : Nat) (hd : d < 10) : (decChar d).isDigit = true := by
  interval_cases d <;> rfl

theorem decChar_ne_zero_char (d : Nat) (hd : d < 10) (h0 : d ≠ 0) : ¬ decChar d = '0' := by
  interval_cases d <;> simp_all <;> decide

theorem digitVal_decChar (d : Nat) (hd : d < 10) : digitVal (decChar d) = d := by
  interval_cases d <;> rfl

theorem takeDigits_append (ds : List Char) : ∀ (rest : List Char),
    (∀ c ∈ ds, c.isDigit = true) → numStop rest →
    takeDigits (ds ++ rest) = (ds, rest) := by
  induction ds with
  | nil =>
    intro rest _ hrest
    cases rest with
    | nil => rfl
    | cons c t =>
      rw [List.nil_append, takeDigits]
      rw [hrest.1]
      simp
  | cons c ds ih =>
    intro rest hds hrest
    rw [List.cons_append, takeDigits, hds c (List.mem_cons_self c ds)]
    simp only [if_true]
    rw [ih rest (fun x hx => hds x (List.mem_cons_of_mem c hx)) hrest]

theorem foldl_reverse_digits (L : List Nat) : ∀ (acc : Nat),
    L.reverse.foldl (fun a d => a * 10 + d) acc = acc * 10 ^ L.length + Nat.ofDigits 10 L := by
  induction L with
  | nil => intro acc; simp
  | cons d T ih =>
    intro acc
    rw [List.reverse_cons, List.foldl_append, ih acc]
    simp only [List.foldl_cons, List.foldl_nil, Nat.ofDigits_cons, List.length_cons]
    push_cast
    ring

theorem digitsToNat_digits (n : Nat) :
    digitsToNat ((Nat.digits 10 n).reverse.map decChar) = n := by
  unfold digitsToNat
  rw [List.foldl_map]
  have hext : ∀ (a : Nat), ∀ d ∈ (Nat.digits 10 n).reverse,
      a * 10 + digitVal (decChar d) = a * 10 + d := by
    intro a d hd
    rw [digitVal_decChar d (Nat.digits_lt_base (by norm_num) (List.mem_reverse.mp hd))]
  rw [List.foldl_ext _ _ 0 hext, foldl_reverse_digits (Nat.digits 10 n) 0]
  simp [Nat.ofDigits_digits]

theorem parseNat_natChars (n : Nat) (rest : List Char) (hrest : numStop rest) :
    parseNat (natChars n ++ rest) = Option.some (n, rest) := by
  by_cases hn : n = 0
  · subst hn
    rw [natChars, if_pos rfl, List.cons_append, List.nil_append, parseNat.eq_def]
    dsimp only
    rw [if_pos rfl]
    cases rest with
    | nil => rfl
    | cons d t =>
      obtain ⟨hd1, hd2, hd3, hd4⟩ := hrest
      dsimp only
      rw [if_neg (by simp [hd1, hd2, hd3, hd4])]
  · rw [natChars, if_neg hn]
    have hne : Nat.digits 10 n ≠ [] := Nat.digits_ne_nil_iff_ne_zero.mpr hn
    obtain ⟨d0, ds, hds⟩ : ∃ d0 ds, (Nat.digits 10 n).reverse = d0 :: ds := by
      rcases hrev : (Nat.digits 10 n).reverse with _ | ⟨d0, ds⟩
      · exact absurd (by simpa using congrArg List.reverse hrev) hne
      · exact ⟨d0, ds, rfl⟩
    have hd0 : d0 = (Nat.digits 10 n).getLast hne := by
      have hrev := List.head?_reverse (Nat.digits 10 n)
      rw [hds] at hrev
      simp only [List.head?_cons] at hrev
      rw [List.getLast?_eq_getLast _ hne] at hrev
      exact Option.some.inj hrev
    have hd0ne : d0 ≠ 0 := by
      rw [hd0]
      exact Nat.getLast_digit_ne_zero 10 hn
    have hd0lt : d0 < 10 :=
      Nat.digits_lt_base (by norm_num)
        (List.mem_reverse.mp (hds ▸ List.mem_cons_self d0 ds))
    have hdigles : ∀ c ∈ (Nat.digits 10 n).reverse.map decChar, c.isDigit = true := by
      intro c hc
      rcases List.mem_map.mp hc with ⟨d, hd, hcd⟩
      rw [← hcd]
      exact decChar_isDigit d (Nat.digits_lt_base (by norm_num) (List.mem_reverse.mp hd))
    rw [hds, List.map_cons, List.cons_append, parseNat.eq_def]
    dsimp only
    rw [if_neg (decChar_ne_zero_char d0 hd0lt hd0ne),
      if_pos (decChar_isDigit d0 hd0lt)]
    have htake := takeDigits_append (decChar d0 :: ds.map decChar) rest
      (by rw [← List.map_cons, ← hds]; exact hdigles) hrest
    rw [List.cons_append] at htake
    rw [htake]
    have hval : digitsToNat (decChar d0 :: ds.map decChar) = n := by
      have := digitsToNat_digits n
      rw [hds, List.map_cons] at this
      exact this
    cases rest with
    | nil =>
      dsimp only
      rw [hval]
    | cons d t =>
      obtain ⟨hd1, hd2, hd3, hd4⟩ := hrest
      dsimp only
      rw [if_neg (by simp [hd2, hd3, hd4]), hval]

/-! ## Round trip: well-formed values, weights, whitespace -/

/-- The string under a string key (junk `""` for non-string keys; only used
under `goodPairs`, which guarantees string keys). -/
def keyStr : PyVal → String
  | PyVal.pystr s => s
  | _ => ""

mutual

/-- Values arising from a real Python `json`/YAML structure for which the
round trip is claimed: mapping keys are strings and are distinct at each
level (a Python dict cannot hold duplicate keys). -/
def goodVal : PyVal → Bool
  | PyVal.pynone => true
  | PyVal.pybool _ => true
  | PyVal.pyint _ => true
  | PyVal.pystr _ => true
  | PyVal.pylist l => goodItems l
  | PyVal.pydict l => goodPairs l && decide ((l.map (fun p => keyStr p.1)).Nodup)

/-- All list elements are good. -/
def goodItems : List PyVal → Bool
  | [] => true
  | x :: t => goodVal x && goodItems t

/-- All keys are strings and all values are good. -/
def goodPairs : List (PyVal × PyVal) → Bool
  | [] => true
  | p :: t =>
    (match p.1 with
     | PyVal.pystr _ => true
     | _ => false) && goodVal p.2 && goodPairs t

end

mutual

/-- Fuel weight of a value: an upper bound on the parser fuel consumed to
read it back. -/
def pvW : PyVal → Nat
  | PyVal.pylist l => 1 + pvItemsW l
  | PyVal.pydict l => 1 + pvPairsW l
  | _ => 1

/-- Fuel weight of list items. -/
def pvItemsW : List PyVal → Nat
  | [] => 1
  | x :: t => 1 + pvW x + pvItemsW t

/-- Fuel weight of dict entries. -/
def pvPairsW : List (PyVal × PyVal) → Nat
  | [] => 1
  | p :: t => 1 + pvW p.2 + pvPairsW t

end

theorem skipWs_not_ws (c : Char) (s : List Char) (h : isJWs c = false) :
    skipWs (c :: s) = c :: s := by
  rw [skipWs, h]
  simp

theorem skipWs_ws_append (pre : List Char) : ∀ (s : List Char),
    (∀ c ∈ pre, isJWs c = true) → skipWs (pre ++ s) = skipWs s := by
  induction pre with
  | nil => intro s _; rfl
  | cons c t ih =>
    intro s hws
    rw [List.cons_append, skipWs, hws c (List.mem_cons_self c t)]
    simp only [if_true]
    exact ih s (fun x hx => hws x (List.mem_cons_of_mem c hx))

theorem jnl_ws (k : Nat) : ∀ c ∈ jnl k, isJWs c = true := by
  intro c hc
  rw [jnl] at hc
  rcases List.mem_cons.mp hc with hc | hc
  · rw [hc]; rfl
  · rw [List.eq_of_mem_replicate hc]; rfl

theorem skipWs_jnl (k : Nat) (s : List Char) : skipWs (jnl k ++ s) = skipWs s :=
  skipWs_ws_append (jnl k) s (jnl_ws k)

/-- Head of the input after a serialized value: the characters that can
legitimately follow a value inside serializer output. -/
def headOk : List Char → Prop
  | [] => True
  | c :: _ => c = ',' ∨ c = '\n' ∨ c = ']' ∨ c = rbrace

theorem headOk_numStop (rest : List Char) (h : headOk rest) : numStop rest := by
  cases rest with
  | nil => trivial
  | cons c t =>
    rcases h with h | h | h | h <;> rw [h] <;> refine ⟨by decide, by decide, by decide, by decide⟩

/-- First character of any serialized value: never whitespace, never a
closing bracket. -/
theorem dumpsVal_head (v : PyVal) (k : Nat) (out : List Char)
    (hout : dumpsVal v k = Option.some out) :
    ∃ c t, out = c :: t ∧ isJWs c = false ∧ ¬ c = ']' := by
  cases v with
  | pynone =>
    exact ⟨'n', _, (Option.some.inj hout).symm, by decide, by decide⟩
  | pybool b =>
    cases b with
    | true => exact ⟨'t', _, (Option.some.inj hout).symm, by decide, by decide⟩
    | false => exact ⟨'f', _, (Option.some.inj hout).symm, by decide, by decide⟩
  | pyint i =>
    cases i with
    | ofNat n =>
      by_cases hn : n = 0
      · subst hn
        exact ⟨'0', _, (Option.some.inj hout).symm, by decide, by decide⟩
      · have hne : Nat.digits 10 n ≠ [] := Nat.digits_ne_nil_iff_ne_zero.mpr hn
        obtain ⟨d0, ds, hds⟩ : ∃ d0 ds, (Nat.digits 10 n).reverse = d0 :: ds := by
          rcases hrev : (Nat.digits 10 n).reverse with _ | ⟨d0, ds⟩
          · exact absurd (by simpa using congrArg List.reverse hrev) hne
          · exact ⟨d0, ds, rfl⟩
        have hd0lt : d0 < 10 :=
          Nat.digits_lt_base (by norm_num)
            (List.mem_reverse.mp (hds ▸ List.mem_cons_self d0 ds))
        have : out = decChar d0 :: ds.map decChar := by
          have h1 := Option.some.inj hout
          rw [dumpsVal] at hout
          simp only [intChars, natChars, if_neg hn, hds, List.map_cons] at hout
          exact (Option.some.inj hout).symm
        refine ⟨decChar d0, ds.map decChar, this, ?_, ?_⟩
        · interval_cases d0 <;> decide
        · interval_cases d0 <;> decide
    | negSucc m =>
      refine ⟨'-', natChars (m + 1), ?_, by decide, by decide⟩
      have := Option.some.inj hout
      rw [← this]
      rfl
  | pystr s =>
    exact ⟨'"', _, (Option.some.inj hout).symm, by decide, by decide⟩
  | pylist l =>
    cases l with
    | nil => exact ⟨'[', _, (Option.some.inj hout).symm, by decide, by decide⟩
    | cons x xs =>
      rw [dumpsVal] at hout
      rcases hbody : dumpsItems (x :: xs) (k + 1) with _ | body
      · rw [hbody] at hout
        cases hout
      · rw [hbody] at hout
        exact ⟨'[', _, (Option.some.inj hout).symm, by decide, by decide⟩
  | pydict l =>
    cases l with
    | nil =>
      refine ⟨lbrace, [rbrace], (Option.some.inj hout).symm, by decide, by decide⟩
    | cons p ps =>
      rw [dumpsVal] at hout
      rcases hbody : dumpsPairs (p :: ps) (k + 1) with _ | body
      · rw [hbody] at hout
        cases hout
      · rw [hbody] at hout
        exact ⟨lbrace, _, (Option.some.inj hout).symm, by decide, by decide⟩

/-! ## Round trip: rebuilding dicts -/

/-- The `(String × PyVal)` member list a serialized dict parses back to. -/
def stripPairs (l : List (PyVal × PyVal)) : List (String × PyVal) :=
  l.map (fun p => (keyStr p.1, p.2))

theorem insertMember_fresh (acc : List (String × PyVal)) (k : String) (v : PyVal)
    (h : ∀ p ∈ acc, p.1 ≠ k) : insertMember acc k v = acc ++ [(k, v)] := by
  induction acc with
  | nil => rfl
  | cons p t ih =>
    obtain ⟨k0, v0⟩ := p
    rw [insertMember, if_neg (h (k0, v0) (List.mem_cons_self _ t)), List.cons_append,
      ih (fun q hq => h q (List.mem_cons_of_mem _ hq))]

theorem buildDictAux_nodup (ms : List (String × PyVal)) : ∀ (acc : List (String × PyVal)),
    ((acc ++ ms).map Prod.fst).Nodup → buildDictAux acc ms = acc ++ ms := by
  induction ms with
  | nil => intro acc _; simp [buildDictAux]
  | cons p t ih =>
    intro acc hnd
    obtain ⟨k, v⟩ := p
    rw [buildDictAux, insertMember_fresh acc k v ?fresh]
    case fresh =>
      intro q hq hqk
      have hmem1 : q.1 ∈ (acc ++ (k, v) :: t).map Prod.fst :=
        List.mem_map_of_mem Prod.fst (List.mem_append_left _ hq)
      have : ((acc ++ (k, v) :: t).map Prod.fst) =
          acc.map Prod.fst ++ k :: t.map Prod.fst := by
        simp
      rw [this] at hnd
      have hknotin : k ∉ acc.map Prod.fst := by
        intro hk
        have := (List.nodup_append.mp hnd).2.2
        exact this hk (List.mem_cons_self k _)
      exact hknotin (hqk ▸ List.mem_map_of_mem Prod.fst hq)
    · have : (acc ++ [(k, v)]) ++ t = acc ++ (k, v) :: t := by simp
      rw [ih (acc ++ [(k, v)]) (by rw [this]; exact hnd), this]

theorem stripPairs_rebuild (l : List (PyVal × PyVal)) (hgood : goodPairs l = true) :
    (stripPairs l).map (fun p => (PyVal.pystr p.1, p.2)) = l := by
  induction l with
  | nil => rfl
  | cons p t ih =>
    obtain ⟨pk, pv⟩ := p
    rw [goodPairs] at hgood
    simp only [Bool.and_eq_true] at hgood
    obtain ⟨⟨hk, _⟩, ht⟩ := hgood
    obtain ⟨s, rfl⟩ : ∃ s, pk = PyVal.pystr s := by
      cases pk <;> simp_all
    rw [stripPairs, List.map_cons, List.map_cons]
    have hrec := ih ht
    rw [stripPairs] at hrec
    rw [hrec]
    rfl

theorem buildDict_strip (l : List (PyVal × PyVal)) (hgood : goodPairs l = true)
    (hnd : ((l.map (fun p => keyStr p.1))).Nodup) :
    buildDict (stripPairs l) = l := by
  have hkeys : (stripPairs l).map Prod.fst = l.map (fun p => keyStr p.1) := by
    simp [stripPairs]
  rw [buildDict, buildDictAux_nodup (stripPairs l) []
      (by rw [List.nil_append, hkeys]; exact hnd),
    List.nil_append]
  exact stripPairs_rebuild l hgood

/-! ## Round trip: parser dispatch and shape lemmas -/

theorem parseVal_ws_pre (f : Nat) (pre s : List Char)
    (hpre : ∀ c ∈ pre, isJWs c = true) :
    parseVal f (pre ++ s) = parseVal f s := by
  cases f with
  | zero => rfl
  | succ f =>
    simp only [parseVal]
    rw [skipWs_ws_append pre s hpre]

theorem parseItems_ws_pre (f : Nat) (pre s : List Char)
    (hpre : ∀ c ∈ pre, isJWs c = true) :
    parseItems f (pre ++ s) = parseItems f s := by
  cases f with
  | zero => rfl
  | succ f =>
    simp only [parseItems]
    rw [parseVal_ws_pre f pre s hpre]

theorem parseMembers_ws_pre (f : Nat) (pre s : List Char)
    (hpre : ∀ c ∈ pre, isJWs c = true) :
    parseMembers f (pre ++ s) = parseMembers f s := by
  cases f with
  | zero => rfl
  | succ f =>
    simp only [parseMembers]
    rw [skipWs_ws_append pre s hpre]

theorem escapeChars_length (cs : List Char) : cs.length ≤ (escapeChars cs).length := by
  induction cs with
  | nil => simp [escapeChars]
  | cons c t ih =>
    rw [escapeChars, List.length_append, List.length_cons]
    have h1 : 1 ≤ (escChar c).length := by
      rw [escChar]
      split_ifs <;> simp [hex4]
    omega

theorem string_mk_toList (s : String) : String.mk s.toList = s := by
  cases s
  rfl

/-- Dispatch of `parseVal` on a digit head. -/
theorem parseVal_succ_number (f : Nat) (c : Char) (s : List Char)
    (hdig : c.isDigit = true) :
    parseVal (f + 1) (c :: s) =
      (match parseNat (c :: s) with
       | Option.some (n, r) => Option.some (PyVal.pyint (n : Int), r)
       | Option.none => Option.none) := by
  have hws : isJWs c = false := by
    by_cases h1 : c = ' '
    · exact absurd (h1 ▸ hdig) (by decide)
    by_cases h2 : c = '\t'
    · exact absurd (h2 ▸ hdig) (by decide)
    by_cases h3 : c = '\n'
    · exact absurd (h3 ▸ hdig) (by decide)
    by_cases h4 : c = '\r'
    · exact absurd (h4 ▸ hdig) (by decide)
    simp [isJWs, h1, h2, h3, h4]
  have hn : ¬ c = 'n' := fun he => absurd (he ▸ hdig) (by decide)
  have ht : ¬ c = 't' := fun he => absurd (he ▸ hdig) (by decide)
  have hfa : ¬ c = 'f' := fun he => absurd (he ▸ hdig) (by decide)
  have hq : ¬ c = '"' := fun he => absurd (he ▸ hdig) (by decide)
  have hb : ¬ c = '[' := fun he => absurd (he ▸ hdig) (by decide)
  have hbr : ¬ c = lbrace := fun he => absurd (he ▸ hdig) (by decide)
  have hm : ¬ c = '-' := fun he => absurd (he ▸ hdig) (by decide)
  simp only [parseVal]
  rw [skipWs_not_ws c s hws]
  dsimp only
  rw [if_neg hn, if_neg ht, if_neg hfa, if_neg hq, if_neg hb, if_neg hbr, if_neg hm,
    if_pos hdig]

/-- Dispatch of `parseVal` on a minus sign. -/
theorem parseVal_succ_neg (f : Nat) (s : List Char) :
    parseVal (f + 1) ('-' :: s) =
      (match parseNat s with
       | Option.some (n, r) => Option.some (PyVal.pyint (-(n : Int)), r)
       | Option.none => Option.none) := by
  simp only [parseVal]
  rw [skipWs_not_ws '-' s (by decide)]
  dsimp only
  rw [if_neg (by decide : ¬ ('-' : Char) = 'n'), if_neg (by decide : ¬ ('-' : Char) = 't'),
    if_neg (by decide : ¬ ('-' : Char) = 'f'), if_neg (by decide : ¬ ('-' : Char) = '"'),
    if_neg (by decide : ¬ ('-' : Char) = '['), if_neg (by decide : ¬ ('-' : Char) = lbrace),
    if_pos rfl]

theorem natChars_shape (n : Nat) :
    ∃ c t, natChars n = c :: t ∧ c.isDigit = true := by
  by_cases hn : n = 0
  · subst hn
    exact ⟨'0', [], rfl, by decide⟩
  · have hne : Nat.digits 10 n ≠ [] := Nat.digits_ne_nil_iff_ne_zero.mpr hn
    obtain ⟨d0, ds, hds⟩ : ∃ d0 ds, (Nat.digits 10 n).reverse = d0 :: ds := by
      rcases hrev : (Nat.digits 10 n).reverse with _ | ⟨d0, ds⟩
      · exact absurd (by simpa using congrArg List.reverse hrev) hne
      · exact ⟨d0, ds, rfl⟩
    have hd0lt : d0 < 10 :=
      Nat.digits_lt_base (by norm_num)
        (List.mem_reverse.mp (hds ▸ List.mem_cons_self d0 ds))
    refine ⟨decChar d0, ds.map decChar, ?_, decChar_isDigit d0 hd0lt⟩
    rw [natChars, if_neg hn, hds, List.map_cons]

theorem dumpsItems_shape (x : PyVal) (xs : List PyVal) (k : Nat) (body : List Char)
    (hout : dumpsItems (x :: xs) k = Option.some body) :
    ∃ o r, dumpsVal x k = Option.some o ∧ body = o ++ r := by
  cases xs with
  | nil =>
    rw [dumpsItems] at hout
    exact ⟨body, [], hout, by simp⟩
  | cons y ys =>
    rw [dumpsItems] at hout
    rcases h1 : dumpsVal x k with _ | o
    · rw [h1] at hout
      cases hout
    · rw [h1] at hout
      rcases h2 : dumpsItems (y :: ys) k with _ | b2
      · rw [h2] at hout
        cases hout
      · rw [h2] at hout
        exact ⟨o, (',' :: jnl k) ++ b2, rfl, by rw [← Option.some.inj hout]; simp⟩

theorem dumpsPairs_head (p : PyVal × PyVal) (ps : List (PyVal × PyVal)) (k : Nat)
    (body : List Char) (hout : dumpsPairs (p :: ps) k = Option.some body) :
    ∃ t, body = '"' :: t := by
  cases ps with
  | nil =>
    rw [dumpsPairs] at hout
    rcases h1 : pyKeyStr p.1 with _ | ks <;> rw [h1] at hout
    · cases hout
    · rcases h2 : dumpsVal p.2 k with _ | v <;> rw [h2] at hout
      · cases hout
      · dsimp only at hout
        refine ⟨(escapeChars ks.toList ++ ['"']) ++ (':' :: ' ' :: v), ?_⟩
        rw [← Option.some.inj hout, encodeString]
        simp
  | cons q qs =>
    rw [dumpsPairs] at hout
    rcases h1 : pyKeyStr p.1 with _ | ks <;> rw [h1] at hout
    · cases hout
    · rcases h2 : dumpsVal p.2 k with _ | v <;> rw [h2] at hout
      · cases hout
      · rcases h3 : dumpsPairs (q :: qs) k with _ | b2 <;> rw [h3] at hout
        · cases hout
        · dsimp only at hout
          refine ⟨((escapeChars ks.toList ++ ['"']) ++ (':' :: ' ' :: v)) ++
            ((',' :: jnl k) ++ b2), ?_⟩
          rw [← Option.some.inj hout, encodeString]
          simp

theorem headOk_jnl (kc : Nat) (X : List Char) : headOk (jnl kc ++ X) := by
  rw [jnl, List.cons_append]
  exact Or.inr (Or.inl rfl)

theorem headOk_comma (X : List Char) : headOk (',' :: X) := Or.inl rfl

/-! ## Round trip: the main induction -/

mutual

/-- Parsing recovers every well-formed serialized value, leaving the rest
of the input in place. -/
theorem parseVal_dumps (v : PyVal) (k : Nat) (out rest : List Char) (fuel : Nat)
    (hv : goodVal v = true) (hout : dumpsVal v k = Option.some out)
    (hrest : headOk rest) (hf : pvW v ≤ fuel) :
    parseVal fuel (out ++ rest) = Option.some (v, rest) := by
  cases v with
  | pynone =>
    obtain ⟨f, rfl⟩ : ∃ f, fuel = f + 1 := ⟨fuel - 1, by simp [pvW] at hf; omega⟩
    rw [dumpsVal] at hout
    obtain rfl := Option.some.inj hout
    simp only [parseVal, List.cons_append, List.nil_append]
    rw [skipWs_not_ws _ _ (by decide)]
    simp +decide
  | pybool b =>
    obtain ⟨f, rfl⟩ : ∃ f, fuel = f + 1 := ⟨fuel - 1, by simp [pvW] at hf; omega⟩
    cases b with
    | true =>
      rw [dumpsVal] at hout
      obtain rfl := Option.some.inj hout
      simp only [parseVal, List.cons_append, List.nil_append]
      rw [skipWs_not_ws _ _ (by decide)]
      simp +decide
    | false =>
      rw [dumpsVal] at hout
      obtain rfl := Option.some.inj hout
      simp only [parseVal, List.cons_append, List.nil_append]
      rw [skipWs_not_ws _ _ (by decide)]
      simp +decide
  | pyint i =>
    obtain ⟨f, rfl⟩ : ∃ f, fuel = f + 1 := ⟨fuel - 1, by simp [pvW] at hf; omega⟩
    cases i with
    | ofNat n =>
      rw [dumpsVal] at hout
      dsimp only [intChars] at hout
      obtain rfl := Option.some.inj hout
      obtain ⟨c, t, hct, hdig⟩ := natChars_shape n
      rw [hct, List.cons_append, parseVal_succ_number f c (t ++ rest) hdig,
        ← List.cons_append, ← hct, parseNat_natChars n rest (headOk_numStop rest hrest)]
      rfl
    | negSucc m =>
      rw [dumpsVal] at hout
      dsimp only [intChars] at hout
      obtain rfl := Option.some.inj hout
      rw [List.cons_append, parseVal_succ_neg f (natChars (m + 1) ++ rest),
        parseNat_natChars (m + 1) rest (headOk_numStop rest hrest)]
      dsimp only
      have hns : (-((m + 1 : Nat) : Int)) = Int.negSucc m := by
        rw [Int.negSucc_eq]
        push_cast
        ring
      rw [hns]
  | pystr s =>
    obtain ⟨f, rfl⟩ : ∃ f, fuel = f + 1 := ⟨fuel - 1, by simp [pvW] at hf; omega⟩
    rw [dumpsVal] at hout
    obtain rfl := Option.some.inj hout
    rw [encodeString, List.cons_append, List.append_assoc, List.singleton_append]
    simp only [parseVal]
    rw [skipWs_not_ws _ _ (by decide)]
    dsimp only
    rw [if_neg (by decide : ¬ ('"' : Char) = 'n'), if_neg (by decide : ¬ ('"' : Char) = 't'),
      if_neg (by decide : ¬ ('"' : Char) = 'f'), if_pos rfl]
    have hlen : s.toList.length + 1 ≤
        (escapeChars s.toList ++ ('"' :: rest)).length + 1 := by
      have := escapeChars_length s.toList
      rw [List.length_append]
      omega
    rw [parseStrBody_escape s.toList rest _ hlen]
    dsimp only
    rw [string_mk_toList]
  | pylist l =>
    cases l with
    | nil =>
      obtain ⟨f, rfl⟩ : ∃ f, fuel = f + 1 := ⟨fuel - 1, by simp [pvW] at hf; omega⟩
      rw [dumpsVal] at hout
      obtain rfl := Option.some.inj hout
      simp only [parseVal, List.cons_append, List.nil_append]
      rw [skipWs_not_ws _ _ (by decide)]
      simp +decide only [reduceIte]
      rw [skipWs_not_ws _ _ (by decide)]
      dsimp only
      rw [if_pos rfl]
    | cons x xs =>
      have hfI : pvItemsW (x :: xs) ≤ fuel - 1 := by
        simp [pvW] at hf
        omega
      obtain ⟨f, rfl⟩ : ∃ f, fuel = f + 1 := ⟨fuel - 1, by simp [pvW] at hf; omega⟩
      rw [dumpsVal] at hout
      rcases hbody : dumpsItems (x :: xs) (k + 1) with _ | body <;> rw [hbody] at hout
      · cases hout
      dsimp only at hout
      obtain rfl := Option.some.inj hout
      obtain ⟨o, r', ho, hbr⟩ := dumpsItems_shape x xs (k + 1) body hbody
      obtain ⟨c0, t0, hct, hcws, hcne⟩ := dumpsVal_head x (k + 1) o ho
      simp only [parseVal, List.cons_append]
      rw [skipWs_not_ws _ _ (by decide)]
      dsimp only
      rw [if_neg (by decide : ¬ ('[' : Char) = 'n'),
        if_neg (by decide : ¬ ('[' : Char) = 't'),
        if_neg (by decide : ¬ ('[' : Char) = 'f'),
        if_neg (by decide : ¬ ('[' : Char) = '"'), if_pos rfl]
      have hass : (jnl (k + 1) ++ body ++ jnl k ++ [']']) ++ rest =
          jnl (k + 1) ++ (body ++ (jnl k ++ (']' :: rest))) := by
        simp
      rw [hass, skipWs_jnl]
      have hshape : body ++ (jnl k ++ (']' :: rest)) =
          c0 :: (t0 ++ r' ++ (jnl k ++ (']' :: rest))) := by
        rw [hbr, hct]
        simp
      rw [hshape, skipWs_not_ws c0 _ hcws]
      dsimp only
      rw [if_neg hcne, ← hshape]
      have hitems := parseItems_dumps (x :: xs) (k + 1) k body rest f
        (by simp) (by simpa [goodVal] using hv) hbody (by simpa using hfI)
      rw [hitems]
  | pydict l =>
    cases l with
    | nil =>
      obtain ⟨f, rfl⟩ : ∃ f, fuel = f + 1 := ⟨fuel - 1, by simp [pvW] at hf; omega⟩
      rw [dumpsVal] at hout
      obtain rfl := Option.some.inj hout
      simp only [parseVal, List.cons_append, List.nil_append]
      rw [skipWs_not_ws _ _ (by decide)]
      simp +decide only [reduceIte]
      rw [skipWs_not_ws _ _ (by decide)]
      dsimp only
      rw [if_pos rfl]
    | cons p ps =>
      have hfP : pvPairsW (p :: ps) ≤ fuel - 1 := by
        simp [pvW] at hf
        omega
      obtain ⟨f, rfl⟩ : ∃ f, fuel = f + 1 := ⟨fuel - 1, by simp [pvW] at hf; omega⟩
      have hgp : goodPairs (p :: ps) = true ∧
          ((p :: ps).map (fun q => keyStr q.1)).Nodup := by
        rw [goodVal] at hv
        simp only [Bool.and_eq_true, decide_eq_true_eq] at hv
        exact hv
      rw [dumpsVal] at hout
      rcases hbody : dumpsPairs (p :: ps) (k + 1) with _ | body <;> rw [hbody] at hout
      · cases hout
      dsimp only at hout
      obtain rfl := Option.some.inj hout
      obtain ⟨tb, htb⟩ := dumpsPairs_head p ps (k + 1) body hbody
      simp only [parseVal, List.cons_append]
      rw [skipWs_not_ws _ _ (by decide)]
      dsimp only
      rw [if_neg (by decide : ¬ lbrace = 'n'), if_neg (by decide : ¬ lbrace = 't'),
        if_neg (by decide : ¬ lbrace = 'f'), if_neg (by decide : ¬ lbrace = '"'),
        if_neg (by decide : ¬ lbrace = '['), if_pos rfl]
      have hass : (jnl (k + 1) ++ body ++ jnl k ++ [rbrace]) ++ rest =
          jnl (k + 1) ++ (body ++ (jnl k ++ (rbrace :: rest))) := by
        simp
      rw [hass, skipWs_jnl]
      have hshape : body ++ (jnl k ++ (rbrace :: rest)) =
          '"' :: (tb ++ (jnl k ++ (rbrace :: rest))) := by
        rw [htb]
        simp
      rw [hshape, skipWs_not_ws _ _ (by decide)]
      dsimp only
      rw [if_neg (by decide : ¬ ('"' : Char) = rbrace), ← hshape]
      have hmem := parseMembers_dumps (p :: ps) (k + 1) k body rest f
        (by simp) hgp.1 hbody (by simpa using hfP)
      rw [hmem]
      dsimp only
      rw [buildDict_strip (p :: ps) hgp.1 hgp.2]

/-- Parsing recovers a non-empty serialized item list up to the closing
bracket. -/
theorem parseItems_dumps (l : List PyVal) (k kc : Nat) (out rest : List Char)
    (fuel : Nat) (hl : l ≠ []) (hv : goodItems l = true)
    (hout : dumpsItems l k = Option.some out) (hf : pvItemsW l ≤ fuel) :
    parseItems fuel (out ++ (jnl kc ++ (']' :: rest))) = Option.some (l, rest) := by
  cases l with
  | nil => exact absurd rfl hl
  | cons x xs =>
    have hgx : goodVal x = true ∧ goodItems xs = true := by
      rw [goodItems] at hv
      simpa [Bool.and_eq_true] using hv
    have hfx : pvW x ≤ fuel - 1 := by
      simp [pvItemsW] at hf
      omega
    have hfxs : pvItemsW xs ≤ fuel - 1 := by
      simp [pvItemsW] at hf
      omega
    obtain ⟨f, rfl⟩ : ∃ f, fuel = f + 1 := ⟨fuel - 1, by simp [pvItemsW] at hf; omega⟩
    cases xs with
    | nil =>
      rw [dumpsItems] at hout
      simp only [parseItems]
      rw [parseVal_dumps x k out (jnl kc ++ (']' :: rest)) f hgx.1 hout
        (headOk_jnl kc _) (by simpa using hfx)]
      dsimp only
      rw [skipWs_jnl, skipWs_not_ws _ _ (by decide)]
      dsimp only
      rw [if_neg (by decide : ¬ (']' : Char) = ','), if_pos rfl]
    | cons y ys =>
      rw [dumpsItems] at hout
      rcases ho1 : dumpsVal x k with _ | o1 <;> rw [ho1] at hout
      · cases hout
      rcases ho2 : dumpsItems (y :: ys) k with _ | o2 <;> rw [ho2] at hout
      · cases hout
      dsimp only at hout
      obtain rfl := Option.some.inj hout
      simp only [parseItems]
      have hass : (o1 ++ (',' :: jnl k) ++ o2) ++ (jnl kc ++ (']' :: rest)) =
          o1 ++ (',' :: (jnl k ++ (o2 ++ (jnl kc ++ (']' :: rest))))) := by
        simp
      rw [hass, parseVal_dumps x k o1 _ f hgx.1 ho1 (headOk_comma _)
        (by simpa using hfx)]
      dsimp only
      rw [skipWs_not_ws ',' _ (by decide)]
      dsimp only
      rw [if_pos rfl, parseItems_ws_pre f (jnl k) _ (jnl_ws k),
        parseItems_dumps (y :: ys) k kc o2 rest f (by simp) hgx.2 ho2
          (by simpa using hfxs)]

/-- Parsing recovers a non-empty serialized member list up to the closing
brace, as the stripped `(String × PyVal)` members. -/
theorem parseMembers_dumps (l : List (PyVal × PyVal)) (k kc : Nat)
    (out rest : List Char) (fuel : Nat) (hl : l ≠ []) (hv : goodPairs l = true)
    (hout : dumpsPairs l k = Option.some out) (hf : pvPairsW l ≤ fuel) :
    parseMembers fuel (out ++ (jnl kc ++ (rbrace :: rest))) =
      Option.some (stripPairs l, rest) := by
  cases l with
  | nil => exact absurd rfl hl
  | cons p ps =>
    obtain ⟨pk, pv⟩ := p
    have hgx : (∃ s, pk = PyVal.pystr s) ∧ goodVal pv = true ∧ goodPairs ps = true := by
      rw [goodPairs] at hv
      simp only [Bool.and_eq_true] at hv
      refine ⟨?_, hv.1.2, hv.2⟩
      rcases hv.1.1 with h
      cases pk <;> simp_all
    obtain ⟨⟨s, rfl⟩, hgv, hgps⟩ := hgx
    have hfv : pvW pv ≤ fuel - 1 := by
      simp [pvPairsW] at hf
      omega
    have hfps : pvPairsW ps ≤ fuel - 1 := by
      simp [pvPairsW] at hf
      omega
    obtain ⟨f, rfl⟩ : ∃ f, fuel = f + 1 := ⟨fuel - 1, by simp [pvPairsW] at hf; omega⟩
    cases ps with
    | nil =>
      rw [dumpsPairs] at hout
      dsimp only [pyKeyStr] at hout
      rcases hov : dumpsVal pv k with _ | vout <;> rw [hov] at hout
      · cases hout
      dsimp only at hout
      obtain rfl := Option.some.inj hout
      simp only [parseMembers]
      have hass : (encodeString s ++ (':' :: ' ' :: vout)) ++ (jnl kc ++ (rbrace :: rest)) =
          '"' :: (escapeChars s.toList ++
            ('"' :: (':' :: ' ' :: (vout ++ (jnl kc ++ (rbrace :: rest)))))) := by
        rw [encodeString]
        simp
      rw [hass, skipWs_not_ws _ _ (by decide)]
      dsimp only
      rw [if_pos rfl]
      have hlen : s.toList.length + 1 ≤
          (escapeChars s.toList ++
            ('"' :: (':' :: ' ' :: (vout ++ (jnl kc ++ (rbrace :: rest)))))).length + 1 := by
        have := escapeChars_length s.toList
        rw [List.length_append]
        omega
      rw [parseStrBody_escape s.toList _ _ hlen]
      dsimp only
      rw [skipWs_not_ws ':' _ (by decide)]
      dsimp only
      rw [if_pos rfl]
      rw [show (' ' :: (vout ++ (jnl kc ++ (rbrace :: rest)))) =
        [' '] ++ (vout ++ (jnl kc ++ (rbrace :: rest))) from rfl]
      rw [parseVal_ws_pre f [' '] _ (by intro c hc; rw [List.mem_singleton] at hc; rw [hc]; rfl)]
      rw [parseVal_dumps pv k vout _ f hgv hov (headOk_jnl kc _) (by simpa using hfv)]
      dsimp only
      rw [skipWs_jnl, skipWs_not_ws _ _ (by decide)]
      dsimp only
      rw [if_neg (by decide : ¬ rbrace = ','), if_pos rfl, string_mk_toList]
      rfl
    | cons q qs =>
      rw [dumpsPairs] at hout
      dsimp only [pyKeyStr] at hout
      rcases hov : dumpsVal pv k with _ | vout <;> rw [hov] at hout
      · cases hout
      rcases hoq : dumpsPairs (q :: qs) k with _ | o2 <;> rw [hoq] at hout
      · cases hout
      dsimp only at hout
      obtain rfl := Option.some.inj hout
      simp only [parseMembers]
      have hass : ((encodeString s ++ (':' :: ' ' :: vout)) ++ (',' :: jnl k) ++ o2) ++
          (jnl kc ++ (rbrace :: rest)) =
          '"' :: (escapeChars s.toList ++
            ('"' :: (':' :: ' ' :: (vout ++
              (',' :: (jnl k ++ (o2 ++ (jnl kc ++ (rbrace :: rest))))))))) := by
        rw [encodeString]
        simp
      rw [hass, skipWs_not_ws _ _ (by decide)]
      dsimp only
      rw [if_pos rfl]
      have hlen : s.toList.length + 1 ≤
          (escapeChars s.toList ++
            ('"' :: (':' :: ' ' :: (vout ++
              (',' :: (jnl k ++ (o2 ++ (jnl kc ++ (rbrace :: rest))))))))).length + 1 := by
        have := escapeChars_length s.toList
        rw [List.length_append]
        omega
      rw [parseStrBody_escape s.toList _ _ hlen]
      dsimp only
      rw [skipWs_not_ws ':' _ (by decide)]
      dsimp only
      rw [if_pos rfl]
      rw [show (' ' :: (vout ++ (',' :: (jnl k ++ (o2 ++ (jnl kc ++ (rbrace :: rest))))))) =
        [' '] ++ (vout ++ (',' :: (jnl k ++ (o2 ++ (jnl kc ++ (rbrace :: rest)))))) from rfl]
      rw [parseVal_ws_pre f [' '] _ (by intro c hc; rw [List.mem_singleton] at hc; rw [hc]; rfl)]
      rw [parseVal_dumps pv k vout _ f hgv hov (headOk_comma _) (by simpa using hfv)]
      dsimp only
      rw [skipWs_not_ws ',' _ (by decide)]
      dsimp only
      rw [if_pos rfl, parseMembers_ws_pre f (jnl k) _ (jnl_ws k),
        parseMembers_dumps (q :: qs) k kc o2 rest f (by simp) hgps hoq
          (by simpa using hfps), string_mk_toList]
      rfl

end

/-! ## Round trip: top level -/

mutual

/-- Well-formed values always serialize (`json.dumps` raises only for
non-scalar dict keys, which `goodVal` excludes). -/
theorem dumpsVal_good_isSome (v : PyVal) (k : Nat) (hv : goodVal v = true) :
    ∃ out, dumpsVal v k = Option.some out := by
  cases v with
  | pynone => exact ⟨_, rfl⟩
  | pybool b => cases b <;> exact ⟨_, rfl⟩
  | pyint i => exact ⟨_, rfl⟩
  | pystr s => exact ⟨_, rfl⟩
  | pylist l =>
    cases l with
    | nil => exact ⟨_, rfl⟩
    | cons x xs =>
      obtain ⟨body, hbody⟩ := dumpsItems_good_isSome (x :: xs) (k + 1)
        (by simpa [goodVal] using hv)
      exact ⟨_, by rw [dumpsVal, hbody]⟩
  | pydict l =>
    cases l with
    | nil => exact ⟨_, rfl⟩
    | cons p ps =>
      have hgp : goodPairs (p :: ps) = true := by
        rw [goodVal] at hv
        simp only [Bool.and_eq_true] at hv
        exact hv.1
      obtain ⟨body, hbody⟩ := dumpsPairs_good_isSome (p :: ps) (k + 1) hgp
      exact ⟨_, by rw [dumpsVal, hbody]⟩

/-- Good item lists always serialize. -/
theorem dumpsItems_good_isSome (l : List PyVal) (k : Nat) (hv : goodItems l = true) :
    ∃ out, dumpsItems l k = Option.some out := by
  cases l with
  | nil => exact ⟨_, rfl⟩
  | cons x xs =>
    have hgx : goodVal x = true ∧ goodItems xs = true := by
      rw [goodItems] at hv
      simpa [Bool.and_eq_true] using hv
    cases xs with
    | nil =>
      obtain ⟨o, ho⟩ := dumpsVal_good_isSome x k hgx.1
      exact ⟨o, by rw [dumpsItems]; exact ho⟩
    | cons y ys =>
      obtain ⟨o, ho⟩ := dumpsVal_good_isSome x k hgx.1
      obtain ⟨o2, ho2⟩ := dumpsItems_good_isSome (y :: ys) k hgx.2
      exact ⟨_, by rw [dumpsItems, ho, ho2]⟩

/-- Good member lists always serialize. -/
theorem dumpsPairs_good_isSome (l : List (PyVal × PyVal)) (k : Nat)
    (hv : goodPairs l = true) : ∃ out, dumpsPairs l k = Option.some out := by
  cases l with
  | nil => exact ⟨_, rfl⟩
  | cons p ps =>
    obtain ⟨pk, pv⟩ := p
    have hgx : (∃ s, pk = PyVal.pystr s) ∧ goodVal pv = true ∧ goodPairs ps = true := by
      rw [goodPairs] at hv
      simp only [Bool.and_eq_true] at hv
      refine ⟨?_, hv.1.2, hv.2⟩
      rcases hv.1.1 with h
      cases pk <;> simp_all
    obtain ⟨⟨s, rfl⟩, hgv, hgps⟩ := hgx
    cases ps with
    | nil =>
      obtain ⟨o, ho⟩ := dumpsVal_good_isSome pv k hgv
      exact ⟨_, by rw [dumpsPairs]; dsimp only [pyKeyStr]; rw [ho]⟩
    | cons q qs =>
      obtain ⟨o, ho⟩ := dumpsVal_good_isSome pv k hgv
      obtain ⟨o2, ho2⟩ := dumpsPairs_good_isSome (q :: qs) k hgps
      exact ⟨_, by rw [dumpsPairs]; dsimp only [pyKeyStr]; rw [ho, ho2]⟩

end

mutual

/-- The parser-fuel weight of a value is bounded by the length of its
serialization. -/
theorem pvW_le_dumps (v : PyVal) (k : Nat) (out : List Char)
    (hout : dumpsVal v k = Option.some out) : pvW v ≤ out.length := by
  cases v with
  | pynone =>
    obtain ⟨c, t, rfl, _, _⟩ := dumpsVal_head _ k out hout
    simp [pvW]
  | pybool b =>
    obtain ⟨c, t, rfl, _, _⟩ := dumpsVal_head _ k out hout
    simp [pvW]
  | pyint i =>
    obtain ⟨c, t, rfl, _, _⟩ := dumpsVal_head _ k out hout
    simp [pvW]
  | pystr s =>
    obtain ⟨c, t, rfl, _, _⟩ := dumpsVal_head _ k out hout
    simp [pvW]
  | pylist l =>
    cases l with
    | nil =>
      rw [dumpsVal] at hout
      obtain rfl := Option.some.inj hout
      simp [pvW, pvItemsW]
    | cons x xs =>
      rw [dumpsVal] at hout
      rcases hbody : dumpsItems (x :: xs) (k + 1) with _ | body <;> rw [hbody] at hout
      · cases hout
      dsimp only at hout
      obtain rfl := Option.some.inj hout
      have hb := pvItemsW_le_dumps (x :: xs) (k + 1) body (by simp) hbody
      simp only [pvW, List.length_cons, List.length_append, jnl, List.length_replicate]
      omega
  | pydict l =>
    cases l with
    | nil =>
      rw [dumpsVal] at hout
      obtain rfl := Option.some.inj hout
      simp [pvW, pvPairsW]
    | cons p ps =>
      rw [dumpsVal] at hout
      rcases hbody : dumpsPairs (p :: ps) (k + 1) with _ | body <;> rw [hbody] at hout
      · cases hout
      dsimp only at hout
      obtain rfl := Option.some.inj hout
      have hb := pvPairsW_le_dumps (p :: ps) (k + 1) body (by simp) hbody
      simp only [pvW, List.length_cons, List.length_append, jnl, List.length_replicate]
      omega

/-- Item-list weight bound. -/
theorem pvItemsW_le_dumps (l : List PyVal) (k : Nat) (out : List Char) (hl : l ≠ [])
    (hout : dumpsItems l k = Option.some out) : pvItemsW l ≤ out.length + 2 := by
  cases l with
  | nil => exact absurd rfl hl
  | cons x xs =>
    cases xs with
    | nil =>
      rw [dumpsItems] at hout
      have := pvW_le_dumps x k out hout
      simp only [pvItemsW]
      omega
    | cons y ys =>
      rw [dumpsItems] at hout
      rcases ho1 : dumpsVal x k with _ | o1 <;> rw [ho1] at hout
      · cases hout
      rcases ho2 : dumpsItems (y :: ys) k with _ | o2 <;> rw [ho2] at hout
      · cases hout
      dsimp only at hout
      obtain rfl := Option.some.inj hout
      have h1 := pvW_le_dumps x k o1 ho1
      have h2 := pvItemsW_le_dumps (y :: ys) k o2 (by simp) ho2
      simp only [pvItemsW, List.length_append, List.length_cons, jnl,
        List.length_replicate] at h2 ⊢
      omega

/-- Member-list weight bound. -/
theorem pvPairsW_le_dumps (l : List (PyVal × PyVal)) (k : Nat) (out : List Char)
    (hl : l ≠ []) (hout : dumpsPairs l k = Option.some out) :
    pvPairsW l ≤ out.length + 2 := by
  cases l with
  | nil => exact absurd rfl hl
  | cons p ps =>
    cases ps with
    | nil =>
      rw [dumpsPairs] at hout
      rcases h1 : pyKeyStr p.1 with _ | ks <;> rw [h1] at hout
      · cases hout
      rcases h2 : dumpsVal p.2 k with _ | v <;> rw [h2] at hout
      · cases hout
      dsimp only at hout
      obtain rfl := Option.some.inj hout
      have hv := pvW_le_dumps p.2 k v h2
      simp only [pvPairsW, List.length_append, List.length_cons, encodeString]
      omega
    | cons q qs =>
      rw [dumpsPairs] at hout
      rcases h1 : pyKeyStr p.1 with _ | ks <;> rw [h1] at hout
      · cases hout
      rcases h2 : dumpsVal p.2 k with _ | v <;> rw [h2] at hout
      · cases hout
      rcases h3 : dumpsPairs (q :: qs) k with _ | o2 <;> rw [h3] at hout
      · cases hout
      dsimp only at hout
      obtain rfl := Option.some.inj hout
      have hv := pvW_le_dumps p.2 k v h2
      have hq := pvPairsW_le_dumps (q :: qs) k o2 (by simp) h3
      simp only [pvPairsW, List.length_append, List.length_cons, encodeString, jnl,
        List.length_replicate] at hq ⊢
      omega

end

/-- `json.loads` parses `json.dumps` output back to the same well-formed
value. -/
theorem jloads_dumps (v : PyVal) (hv : goodVal v = true) (out : List Char)
    (hout : dumpsVal v 0 = Option.some out) :
    jloads (String.mk out) = Option.some v := by
  rw [jloads, show (String.mk out).toList = out from rfl, jloadsChars]
  have hfuel : pvW v ≤ 2 * out.length + 2 := by
    have := pvW_le_dumps v 0 out hout
    omega
  have hp := parseVal_dumps v 0 out [] (2 * out.length + 2) hv hout trivial hfuel
  rw [List.append_nil] at hp
  rw [hp]
  rfl

/-- C8 (amended): the YAML-to-canonical-JSON round trip holds for parsed
structures that are truthy and whose dict keys are all strings (recursively):
for any spec text whose `parse_api_spec` result is such a value `v`,
`reconstruct_definition` produces a canonical JSON string that `json.loads`
parses back to exactly `v`. (The original claim over every structure the
serializer accepts fails: falsy structures such as `\x7b\x7d` short-circuit to
`None`, and accepted non-string scalar keys are coerced to strings, both
breaking structural equality — see the counterexample.) -/
theorem roundtrip_holds_for_truthy_string_keyed
    (yamlParse : String → Option PyVal) (spec_text : String) (v : PyVal) (dt : String)
    (hparse : parse_api_spec yamlParse spec_text = v)
    (hgood : goodVal v = true) (htr : truthy v = true) :
    ∃ s, reconstruct_definition v dt = Option.some s ∧ jloads s = Option.some v := by
  clear hparse
  obtain ⟨out, hout⟩ := dumpsVal_good_isSome v 0 hgood
  refine ⟨String.mk out, ?_, jloads_dumps v hgood out hout⟩
  rw [reconstruct_definition, if_pos htr, hout]

theorem roundtrip_holds_for_truthy_string_keyed_witness :
    ∃ s, reconstruct_definition
        (PyVal.pydict [(PyVal.pystr "openapi", PyVal.pystr "3.0.0")]) "x" =
        Option.some s ∧
      jloads s = Option.some
        (PyVal.pydict [(PyVal.pystr "openapi", PyVal.pystr "3.0.0")]) :=
  roundtrip_holds_for_truthy_string_keyed
    (fun _ => Option.some (PyVal.pydict [(PyVal.pystr "openapi", PyVal.pystr "3.0.0")]))
    "openapi: 3.0.0"
    (PyVal.pydict [(PyVal.pystr "openapi", PyVal.pystr "3.0.0")])
    "x" (by rfl) (by rfl) (by rfl)

/-- C8 counterexample to the original unrestricted round trip: the falsy
empty dict — which `json.dumps` accepts — yields no canonical JSON at all
(`reconstruct_definition` returns `None`), and a YAML-parsable dict with the
integer key `1` — also accepted by `json.dumps` — serializes with the key
coerced to the string `"1"`, so re-parsing yields a structurally different
value. -/
theorem roundtrip_fails_for_falsy_or_nonstring_keys :
    reconstruct_definition (PyVal.pydict []) "openapi" = Option.none ∧
    parse_api_spec
        (fun _ => Option.some (PyVal.pydict [(PyVal.pyint 1, PyVal.pystr "a")]))
        "1: a" =
      PyVal.pydict [(PyVal.pyint 1, PyVal.pystr "a")] ∧
    reconstruct_definition (PyVal.pydict [(PyVal.pyint 1, PyVal.pystr "a")]) "openapi" =
      Option.some "\x7b\n  \"1\": \"a\"\n\x7d" ∧
    jloads "\x7b\n  \"1\": \"a\"\n\x7d" =
      Option.some (PyVal.pydict [(PyVal.pystr "1", PyVal.pystr "a")]) ∧
    PyVal.pydict [(PyVal.pystr "1", PyVal.pystr "a")] ≠
      PyVal.pydict [(PyVal.pyint 1, PyVal.pystr "a")] := by
  refine ⟨rfl, rfl, rfl, rfl, ?_⟩
  intro h
  simp at h
